import Mathlib

/-!
Verification of the CLONES disk-backed sampling index core
(`src/include/bucket.hpp`, `src/include/sbs_context_index.hpp`,
`id_signature.cpp`).

The bucket file is modelled as the list of its stored values.  Byte
positions inside the value area are modelled as value ordinals: with a
constant on-disk value size `S`, the byte offset `data_pos + i * S`
corresponds to ordinal `i`, `final_pos` corresponds to the bucket size,
and `Archive::Binary::In::eof()` (the archive layer is not part of the
sources; per the spec §4.1 it is a typed reader over a seekable stream)
corresponds to the read ordinal having reached the size.  Random number
generators are modelled as streams `Nat → Nat` together with a cursor:
each `std::uniform_int_distribution(0, m-1)` draw reads the stream at
the cursor modulo `m` and advances the cursor.
-/

namespace CLONES

/-! ### Generic list helpers -/

/-- `std::swap(l[i], l[j])` on a list; out-of-range indices leave the
list unchanged (the sources only swap in-range cells). -/
def swapL (l : List α) (i j : Nat) : List α :=
  match l[i]?, l[j]? with
  | some a, some b => (l.set i b).set j a
  | _, _ => l

/-! ### `BucketBase<VALUE>::load_buffer` (sequential, bucket.hpp:151-178)

Reads up to `slots` values starting at ordinal `pos`; stops at the end
of the value area.  The early `archive.size()==read_pos` return and the
in-loop `final_pos==read_pos` check coincide in the single-writer
model. -/

def load_buffer (file : List α) : Nat → Nat → List α × Nat
  | 0, pos => ([], pos)
  | slots+1, pos =>
    if pos = file.length then ([], pos)
    else
      match file[pos]? with
      | some v =>
        let r := load_buffer file slots (pos+1)
        (v :: r.1, r.2)
      | none => ([], pos)

/-! ### `BucketWriter<VALUE>` (bucket.hpp:265-895)

State: the flushed file contents, the write cache, and the cache
capacity (`cache.capacity()`).  `num_of_values` counts both flushed and
cached values, exactly as `push_back` increments it. -/

structure BucketWriter (α : Type) where
  file : List α
  cache : List α
  cap : Nat
  deriving Repr, DecidableEq

/-- Bucket size: `BucketBase::size()`, kept in sync by `push_back`. -/
def BucketWriter.size (w : BucketWriter α) : Nat :=
  w.file.length + w.cache.length

/-- `BucketWriter::flush` (bucket.hpp:859-886): append the cache to the
file and clear it.  (The rewrite of the stored count at `size_pos` is
implicit: the model keeps the count as `size`.) -/
def BucketWriter.flush (w : BucketWriter α) : BucketWriter α :=
  { file := w.file ++ w.cache, cache := [], cap := w.cap }

/-- `BucketWriter::push_back` (bucket.hpp:686-695). -/
def BucketWriter.push_back (w : BucketWriter α) (v : α) : BucketWriter α :=
  let w1 := if w.cache.length = w.cap then w.flush else w
  { w1 with cache := w1.cache ++ [v] }

/-- `BucketWriter::set_cache_size` (bucket.hpp:819-835).  `S` is
`sizeof(VALUE)`.  `cache.reserve(n)` never shrinks the capacity
(C++ standard: `reserve` with `n ≤ capacity()` has no effect, and the
implementations allocate exactly `n` when growing), hence `max`. -/
def BucketWriter.set_cache_size (S : Nat) (w : BucketWriter α)
    (cache_size : Nat) : Except String (BucketWriter α) :=
  if cache_size < S then
    .error "BucketWriter: the minimum cache size is sizeof(VALUE)."
  else
    let cacheable_values := cache_size / S
    let w1 := if cacheable_values < w.cache.length then w.flush else w
    .ok { w1 with cap := max w1.cap cacheable_values }

/-- `BucketWriter::get_cache_size` (bucket.hpp:848-851):
`cache.capacity() * sizeof(VALUE)`. -/
def BucketWriter.get_cache_size (S : Nat) (w : BucketWriter α) : Nat :=
  w.cap * S

/-- The `BucketWriter` constructor (bucket.hpp:610-617) on a fresh
(non-existing) bucket file: `set_cache_size(cache_size)` on an empty
writer, then an empty file is created. -/
def mkBucketWriter (α : Type) (S cache_size : Nat) :
    Except String (BucketWriter α) :=
  BucketWriter.set_cache_size S { file := [], cache := [], cap := 0 } cache_size

/-! ### `BucketReader<VALUE>` ordinal access (bucket.hpp:1219-1255) -/

/-- `BucketBase::get_value_pos` (bucket.hpp:126-136) in bytes, with
`data_pos = 0` and `final_pos - data_pos = N * S` (the exact-size
invariant of §3 of the spec, which holds in this model by
construction). -/
def get_value_pos (S N i : Nat) : Nat :=
  if i < N then i * (N * S) / N else N * S

/-- Reading one value at a byte position: the value whose cell contains
that byte. -/
def read_value_at (S : Nat) (file : List α) (bytepos : Nat) : Option α :=
  file[bytepos / S]?

/-- `BucketReader::operator[]` (bucket.hpp:1219-1238). -/
def bucket_get (S : Nat) (file : List α) (i : Nat) : Except String α :=
  if i ≥ file.length then
    .error "The index is out of the bucket boundaries."
  else
    match read_value_at S file (get_value_pos S file.length i) with
    | some v => .ok v
    | none => .error "read failed"

/-! ### `BucketReader<VALUE>::const_iterator` (bucket.hpp:1005-1121)

Sequential iteration with an iterator-local read cache.  The model
keeps only the valid cache prefix (`available_in_cache` values). -/

structure SeqIter (α : Type) where
  cache : List α
  read_pos : Nat
  index : Nat
  deriving Repr

/-- `available_in_cache`. -/
def SeqIter.available (it : SeqIter α) : Nat := it.cache.length

/-- The private iterator constructor (bucket.hpp:1019-1024). -/
def seq_begin (file : List α) (B : Nat) : SeqIter α :=
  let r := load_buffer file B 0
  { cache := r.1, read_pos := r.2, index := 0 }

/-- `const_iterator::is_end` (bucket.hpp:1084-1087). -/
def SeqIter.is_end (it : SeqIter α) : Bool :=
  it.index = 0 && it.available = 0

/-- `const_iterator::operator*` (bucket.hpp:1060-1066); `none` models
the exception on a finished iterator. -/
def SeqIter.deref (it : SeqIter α) : Option α :=
  it.cache[it.index]?

/-- `const_iterator::operator++` (bucket.hpp:1040-1053). -/
def seq_next (file : List α) (B : Nat) (it : SeqIter α) : SeqIter α :=
  let index := it.index + 1
  if index ≥ it.available then
    let r := load_buffer file B it.read_pos
    { cache := r.1, read_pos := r.2, index := 0 }
  else
    { it with index := index }

/-- Collecting the values of a sequential iteration (the standard
`begin`/`end` loop).  `fuel` bounds the number of emitted values; the
iteration emits at most `file.length` values. -/
def seq_emit (file : List α) (B : Nat) : Nat → SeqIter α → List α
  | 0, _ => []
  | fuel+1, it =>
    if it.is_end then []
    else
      match it.deref with
      | some v => v :: seq_emit file B fuel (seq_next file B it)
      | none => []

/-- Sequential iteration over a bucket with read-cache capacity `B`. -/
def seq_iterate (file : List α) (B : Nat) : List α :=
  seq_emit file B (file.length + 1) (seq_begin file B)

/-- All the values obtained by repeatedly calling `load_buffer` with
`B` slots from position `pos` on (the read pattern of
`split_in_random_chunks`, bucket.hpp:379-388).  Recursion on the
remaining suffix length. -/
def seq_read_all (file : List α) (B : Nat) : Nat → Nat → List α
  | 0, _ => []
  | fuel+1, pos =>
    let r := load_buffer file B pos
    if r.1.length = 0 then []
    else r.1 ++ seq_read_all file B fuel r.2

/-! ### `std::shuffle` (used at bucket.hpp:506 and 583)

The standard Fisher–Yates loop: for `i` from `n-1` down to `1`, draw
`j` uniformly in `[0, i]` and swap cells `i` and `j`.  `k` is the
stream cursor of the generator. -/

def fy_aux (rng : Nat → Nat) : Nat → Nat → List α → List α
  | _, 0, l => l
  | k, i+1, l => fy_aux rng (k+1) i (swapL l (i+1) (rng k % (i+2)))

/-- `std::shuffle(first, last, g)` on a whole list. -/
def std_shuffle (rng : Nat → Nat) (k : Nat) (l : List α) : List α :=
  fy_aux rng k (l.length - 1) l

/-- Number of generator draws consumed by `std_shuffle`. -/
def shuffle_draws (l : List α) : Nat := l.length - 1

/-! ### `BucketWriter::split_in_random_chunks` (bucket.hpp:356-409) -/

structure SplitState (α : Type) where
  chunks : List (List α)
  chunk_sizes : List Nat
  positions : List Nat
  last_chunk : Nat
  k : Nat
  deriving Repr

/-- One iteration of the distribution loop (bucket.hpp:381-406): draw a
bin slot `pos ≤ last_chunk`, append the value to the bin
`positions[pos]`, and close the bin when it reaches `max_chunk_size`. -/
def split_step (rng : Nat → Nat) (max_chunk_size : Nat)
    (s : SplitState α) (v : α) : SplitState α :=
  let pos := rng s.k % (s.last_chunk + 1)
  let index := s.positions.getD pos 0
  let chunk_sizes := s.chunk_sizes.set index (s.chunk_sizes.getD index 0 + 1)
  let chunks := s.chunks.set index (s.chunks.getD index [] ++ [v])
  if chunk_sizes.getD index 0 = max_chunk_size then
    { chunks := chunks, chunk_sizes := chunk_sizes,
      positions := if pos ≠ s.last_chunk then swapL s.positions pos s.last_chunk
                   else s.positions,
      last_chunk := s.last_chunk - 1, k := s.k + 1 }
  else
    { s with chunks := chunks, chunk_sizes := chunk_sizes, k := s.k + 1 }

/-- `split_in_random_chunks`: the source values `vs` are the bucket
values read sequentially through the load buffer
(`seq_read_all file max_chunk_size`); `num_of_chunks = (N-1)/cap + 1`
(bucket.hpp:364). -/
def split_in_random_chunks (rng : Nat → Nat) (max_chunk_size : Nat)
    (vs : List α) (k0 : Nat) : SplitState α :=
  let num_of_chunks := (vs.length - 1) / max_chunk_size + 1
  vs.foldl (split_step rng max_chunk_size)
    { chunks := List.replicate num_of_chunks [],
      chunk_sizes := List.replicate num_of_chunks 0,
      positions := List.range num_of_chunks,
      last_chunk := num_of_chunks - 1, k := k0 }

/-! ### `BucketWriter::shuffle` and its two modes (bucket.hpp:477-812) -/

/-- `BucketWriter::shuffle_in_memory` (bucket.hpp:487-524).  After the
rewrite the write cache is restored to a vector of `cache.size()`
elements taken after the flush, i.e. an empty vector (capacity 0). -/
def shuffle_in_memory (rng : Nat → Nat) (w : BucketWriter α) (k : Nat) :
    BucketWriter α × Nat :=
  let w1 := w.flush
  if w1.size = 0 then (w1, k)
  else
    ({ file := std_shuffle rng k w1.file, cache := [], cap := 0 },
     k + shuffle_draws w1.file)

/-- `BucketWriter::shuffle_on_disk` (bucket.hpp:542-595).  The chunk
reload (`load_buffer(cache, chunk_path)`, bucket.hpp:579) cannot hit
the larger-than-buffer error because the split caps every chunk at
`buff_values` values. -/
def shuffle_on_disk (rng : Nat → Nat) (S buffer_size : Nat)
    (w : BucketWriter α) (k : Nat) :
    Except String (BucketWriter α × Nat) :=
  let w1 := w.flush
  if w1.size = 0 then .ok (w1, k)
  else
    let buff_values := (buffer_size / 2) / S
    if buff_values = 0 then
      .error "BucketWriter::shuffle_on_disk(): the minimum buffer size is 2*sizeof(VALUE)."
    else
      let vs := seq_read_all w1.file buff_values (w1.file.length + 1) 0
      let st := split_in_random_chunks rng buff_values vs k
      let out := st.chunks.foldl
        (fun (acc : List α × Nat) c =>
          (acc.1 ++ std_shuffle rng acc.2 c, acc.2 + shuffle_draws c))
        ([], st.k)
      .ok ({ file := out.1, cache := [], cap := 0 }, out.2)

/-- `BucketWriter::shuffle(random_generator, buffer_size, tmp_dir,
progress_bar)` (bucket.hpp:799-812): mode dispatch on
`buffer_size / sizeof(VALUE) ≥ size()`. -/
def BucketWriter.shuffle (rng : Nat → Nat) (S buffer_size : Nat)
    (w : BucketWriter α) (k : Nat) :
    Except String (BucketWriter α × Nat) :=
  let buff_values := buffer_size / S
  if w.size ≤ buff_values then .ok (shuffle_in_memory rng w k)
  else shuffle_on_disk rng S buffer_size w k

/-! ### `BucketReader::load_buffer` (circular, bucket.hpp:962-994)

The wrap-around load used by random tours: read from `pos`, wrap to
the start of the value area upon reaching the file end, stop when the
tour start position `stop` is reached again — except the first time
when `init` is set. -/

def load_circ (file : List α) (stop : Nat) : Nat → Bool → Nat → List α × Nat
  | 0, _, pos => ([], pos)
  | slots+1, init, pos =>
    let pos1 := if pos = file.length then 0 else pos
    if pos1 = stop ∧ init = false then ([], pos1)
    else
      let init1 := if pos1 = stop then false else init
      match file[pos1]? with
      | some v =>
        let r := load_circ file stop slots init1 (pos1+1)
        (v :: r.1, r.2)
      | none => ([], pos1)

/-! ### `BucketRandomTour<VALUE, RANDOM_GENERATOR>::const_iterator`
(bucket.hpp:1370-1541)

The model keeps the valid cache prefix as a list; `available_in_cache`
is its length and the selected value sits at its end
(`cache[available_in_cache-1]`).  The iterator draws its in-window
choices from its own member generator, which the constructor
(bucket.hpp:1408-1417) leaves default-constructed; it is modelled as
the stream `rng` with cursor `k`. -/

structure TourIt (α : Type) where
  cache : List α
  pos : Nat
  iterated : Nat
  k : Nat
  deriving Repr, DecidableEq

/-- Move cell `j` to the back: `std::swap(cache[pos], cache[m-1])`. -/
def move_to_last (l : List α) (j : Nat) : List α :=
  swapL l j (l.length - 1)

/-- `const_iterator::select_a_value_in_cache` (bucket.hpp:1388-1399). -/
def select_a_value (rng : Nat → Nat) (s : TourIt α) : TourIt α :=
  if s.cache.length = 0 then s
  else
    { s with cache := move_to_last s.cache (rng s.k % s.cache.length),
             iterated := s.iterated + 1, k := s.k + 1 }

/-- The private iterator constructor (bucket.hpp:1408-1417): first
circular load (with `init = true`) from the tour start `i0`, then a
first selection. -/
def tour_init (file : List α) (B i0 : Nat) (rng : Nat → Nat) : TourIt α :=
  let r := load_circ file i0 B true i0
  select_a_value rng { cache := r.1, pos := r.2, iterated := 0, k := 0 }

/-- `const_iterator::is_end` (bucket.hpp:1482-1485). -/
def tour_is_end (i0 : Nat) (s : TourIt α) : Bool :=
  s.cache.length = 0 && s.pos = i0

/-- `const_iterator::operator*` (bucket.hpp:1458-1464): the value at
`cache[available_in_cache-1]`; `none` models the end-of-tour
exception. -/
def tour_deref (s : TourIt α) : Option α :=
  s.cache.getLast?

/-- First half of `const_iterator::operator++` (bucket.hpp:1438-1443):
drop the consumed value (`--available_in_cache`) and, when the window
is exhausted but the file position has not wrapped back to the tour
start, refill the cache with the next circular window. -/
def tour_decrement (file : List α) (B i0 : Nat) (s : TourIt α) : TourIt α :=
  if s.cache.dropLast.length = 0 ∧ s.pos ≠ i0 then
    let r := load_circ file i0 B false s.pos
    { cache := r.1, pos := r.2, iterated := s.iterated, k := s.k }
  else
    { cache := s.cache.dropLast, pos := s.pos, iterated := s.iterated,
      k := s.k }

/-- Second half of `const_iterator::operator++` (bucket.hpp:1445-1450):
if the tour has ended only `iterated` is bumped, otherwise the next
value is selected in the cache. -/
def tour_finish (i0 : Nat) (rng : Nat → Nat) (s1 : TourIt α) : TourIt α :=
  if tour_is_end i0 s1 then { s1 with iterated := s1.iterated + 1 }
  else select_a_value rng s1

/-- `const_iterator::operator++` (bucket.hpp:1433-1451). -/
def tour_next (file : List α) (B i0 : Nat) (rng : Nat → Nat)
    (s : TourIt α) : TourIt α :=
  if tour_is_end i0 s then s
  else tour_finish i0 rng (tour_decrement file B i0 s)

/-- `const_iterator::remaining_values` (bucket.hpp:1504-1507) with `N`
the bucket size. -/
def remaining_values (N : Nat) (s : TourIt α) : Nat :=
  (N + 1) - s.iterated

/-- The iterator state after `n` `operator++` advances. -/
def tour_after (file : List α) (B i0 : Nat) (rng : Nat → Nat) (n : Nat) :
    TourIt α :=
  (tour_next file B i0 rng)^[n] (tour_init file B i0 rng)

/-- The values emitted by the `begin`/`is_end`/`++` loop over a tour
iterator; `fuel` bounds the number of emissions. -/
def tour_emit (file : List α) (B i0 : Nat) (rng : Nat → Nat) :
    Nat → TourIt α → List α
  | 0, _ => []
  | fuel+1, s =>
    if tour_is_end i0 s then []
    else
      match tour_deref s with
      | some v => v :: tour_emit file B i0 rng fuel (tour_next file B i0 rng s)
      | none => []

/-- The complete emitted sequence of a random tour started at ordinal
`i0` with a window of `B` values. -/
def tour_values (file : List α) (B i0 : Nat) (rng : Nat → Nat) : List α :=
  tour_emit file B i0 rng (file.length + 1) (tour_init file B i0 rng)

/-! ### `BucketRandomTour<VALUE, RANDOM_GENERATOR>` (bucket.hpp:1348-1677)

A random number generator with C++ value semantics: a stream and a
cursor.  Copying the structure copies the state. -/

structure RngState where
  f : Nat → Nat
  k : Nat

/-- One `std::uniform_int_distribution(0, m-1)` draw. -/
def RngState.draw (g : RngState) (m : Nat) : Nat × RngState :=
  (g.f g.k % m, { g with k := g.k + 1 })

/-- The caller keeps using its own generator: `n` further draws. -/
def RngState.advance (g : RngState) (n : Nat) : RngState :=
  { g with k := g.k + n }

/-- The tour object: a handle to the bucket contents, the generator
copy stored by the constructor (bucket.hpp:1555-1561 initialises the
member `random_generator{random_generator}` from the by-const-reference
parameter, i.e. a copy), and the cache capacity in values. -/
structure BucketRandomTour (α : Type) where
  file : List α
  random_generator : RngState
  cacheable_values : Nat

/-- `BucketRandomTour::set_cache_size` (bucket.hpp:1603-1614). -/
def tour_set_cache_size (S cache_size : Nat) : Except String Nat :=
  if cache_size < S then
    .error "BucketRandomTour: the minimum cache size is sizeof(VALUE)."
  else .ok (cache_size / S)

/-- The `BucketRandomTour` constructor: store a copy of the generator
and set the cache size. -/
def mkBucketRandomTour (file : List α) (g : RngState) (S cache_size : Nat) :
    Except String (BucketRandomTour α) :=
  (tour_set_cache_size S cache_size).map
    (fun cv => { file := file, random_generator := g, cacheable_values := cv })

/-- `BucketRandomTour::begin` (bucket.hpp:1570-1586): the start ordinal
is drawn from a local copy `random_gen_copy` of the stored generator
(constant-size values); an empty bucket starts at `data_pos`
(ordinal 0). -/
def tour_begin_index (t : BucketRandomTour α) : Nat :=
  if 0 < t.file.length then (t.random_generator.draw t.file.length).1
  else 0

/-- The sequence a tour emits.  The iterator built by `begin` draws its
in-window selections from its member generator, which the iterator
constructor default-initialises (bucket.hpp:1408-1417 does not mention
`random_generator` in its initialiser list), modelled as the fixed
stream `default_rng` of a default-constructed generator. -/
def tour_sequence (t : BucketRandomTour α) (default_rng : Nat → Nat) : List α :=
  tour_values t.file t.cacheable_values (tour_begin_index t) default_rng

/-- The program fragment the caller-independence property is about:
construct a tour from the caller generator, let the caller make `n`
further draws from its own generator, then iterate the tour.  The
caller generator after construction is `g.advance n`; the tour emits
from the copy stored at construction time. -/
def scenario_emit (file : List α) (g : RngState) (cv : Nat)
    (n : Nat) (default_rng : Nat → Nat) : List α :=
  let t : BucketRandomTour α :=
    { file := file, random_generator := g, cacheable_values := cv }
  let caller_generator_after := g.advance n
  let _ := caller_generator_after
  tour_sequence t default_rng

/-! ### `IndexReader<KEY, VALUE, RANDOM_GENERATOR>` (bucket.hpp:2464-2961)

The reader state: the key-bucket map (each bucket given by its value
list) and the key-to-tour-iterator map, both as association lists with
pairwise distinct keys. -/

structure IndexReader (κ α : Type) where
  buckets : List (κ × List α)
  bucket_iterators : List (κ × (Nat × TourIt α))
  deriving Repr

/-- `IndexReader::operator[]` (bucket.hpp:2642-2645): `buckets.at(key)`
throws for a missing key. -/
def IndexReader.get [DecidableEq κ] (st : IndexReader κ α) (key : κ) :
    Except String (List α) :=
  match (st.buckets.lookup key) with
  | some b => .ok b
  | none => .error "key not found"

/-- `IndexReader::num_of_values` (bucket.hpp:2674-2682). -/
def IndexReader.num_of_values [DecidableEq κ] (st : IndexReader κ α)
    (key : κ) : Nat :=
  match st.buckets.lookup key with
  | some b => b.length
  | none => 0

/-- `IndexReader::extractable_for` (bucket.hpp:2653-2666): the
remaining count of the tour iterator when one exists (the stored pair
carries the bucket size used by `remaining_values`), else the bucket
size, else 0. -/
def IndexReader.extractable_for [DecidableEq κ] (st : IndexReader κ α)
    (key : κ) : Nat :=
  match st.bucket_iterators.lookup key with
  | some it => remaining_values it.1 it.2
  | none =>
    match st.buckets.lookup key with
    | some b => b.length
    | none => 0

/-- The key-selection walk of `IndexReader::extract_from_class`
(bucket.hpp:2892-2902): subtract each class key's extractable count
from the drawn `p` and stop at the first key whose count exceeds the
residual; the trailing `return {key, extract(generator, key)}` is the
fallback for the representative itself. -/
def select_from_class [DecidableEq κ] (st : IndexReader κ α)
    (cls : List κ) (p : Nat) (fallback : κ) : κ :=
  match cls with
  | [] => fallback
  | class_key :: rest =>
    if p < st.extractable_for class_key then class_key
    else select_from_class st rest (p - st.extractable_for class_key) fallback

/-- `IndexReader::extract_from_class` (bucket.hpp:2873-2903), up to the
selected key: sum the extractable counts over the class, fail on an
empty total, draw `p` uniformly in `{0..total-1}` and walk the class.
`get_class_of` is the `KEY_PARTITION` parameter. -/
def IndexReader.extract_from_class [DecidableEq κ] (st : IndexReader κ α)
    (get_class_of : κ → List κ) (g : RngState) (key : κ) :
    Except String κ :=
  let key_class := get_class_of key
  let available_in_class := (key_class.map st.extractable_for).sum
  if available_in_class = 0 then
    .error "No value available in the key class."
  else
    .ok (select_from_class st key_class
          (g.draw available_in_class).1 key)

/-! ### `IDType::IDType(const std::string&)` (id_signature.cpp:52-132) -/

/-- The three fragment types of `IDContext` (id_context.hpp:67). -/
inductive FragmentType where
  | HOMOPOLYMER
  | HETEROPOLYMER
  | MICROHOMOLOGY
  deriving Repr, DecidableEq

/-- An ID mutation type: fragment type, first and second level codes
(both `uint8_t`), and the insertion flag (id_signature.hpp). -/
structure IDType where
  ftype : FragmentType
  fl_code : Nat
  sl_code : Nat
  insertion : Bool
  deriving Repr, DecidableEq

/-- Modelled from the spec: `GenomicSequence::is_a_DNA_base`
(genomic_sequence.hpp is not among the sources).  Per §4.8 and the
glossary, the DNA bases are the four upper-case nucleotide letters,
`'N'` and every other character being a non-base. -/
def is_a_DNA_base (c : Char) : Bool :=
  c = 'A' || c = 'C' || c = 'G' || c = 'T'

/-- The field decomposition performed by the
`while (std::getline(istype, field, ':'))` loop: fields are the
separator-delimited segments, and a trailing separator does not
produce a final empty field (`getline` at end-of-stream fails).  The
recursion goes character by character: a separator opens a fresh empty
field, any other character is prepended to the first field of the
split of the remainder. -/
def getline_split : List Char → List (List Char)
  | [] => []
  | c :: cs =>
    if c = ':' then [] :: getline_split cs
    else
      match getline_split cs with
      | [] => [[c]]
      | f :: rest => (c :: f) :: rest

/-- `std::stoi`: skip leading blanks, read an optional sign and a
nonempty digit run, fail on no digits (`invalid_argument`) or an
out-of-`int`-range value (`out_of_range`); trailing characters are
ignored. -/
def stoi (cs : List Char) : Except String Int :=
  let cs1 := cs.dropWhile (fun c =>
    c = ' ' ∨ c = '\t' ∨ c = '\n' ∨ c = '\x0b' ∨ c = '\x0c' ∨ c = '\r')
  let sign : Int := if cs1.headD ' ' = '-' then -1 else 1
  let cs2 := if cs1.headD ' ' = '-' ∨ cs1.headD ' ' = '+' then cs1.tail else cs1
  let digits := cs2.takeWhile Char.isDigit
  if digits = [] then .error "stoi: invalid argument"
  else
    let v : Int :=
      sign * ((digits.foldl (fun a c => a * 10 + (c.toNat - 48)) 0 : Nat) : Int)
    if v < -2147483648 ∨ 2147483647 < v then .error "stoi: out of range"
    else .ok v

/-- `IDType::read_size<TYPE>` (id_signature.hpp:1848-1867) with
`maxv = std::numeric_limits<TYPE>::max()`. -/
def read_size (maxv : Nat) (num_str : List Char) : Except String Nat :=
  match stoi num_str with
  | .ok num =>
    if 0 ≤ num ∧ num ≤ (maxv : Int) then .ok num.toNat
    else .error "read_size: should be a number in the interval"
  | .error _ => .error "read_size: should be a number in the interval"

/-- `IDType::IDType(const std::string&)` (id_signature.cpp:52-132).
`type.back()` on the empty string is undefined behaviour in the
source; the model lets the empty string fall through to the
field-count failure.  The `++sl_code` for non-microhomology deletions
acts on a `uint8_t`, hence the modulus.  The final
`IDContext{ftype, fl_code, sl_code}` assignment runs the `IDContext`
constructor validation (part_002: a homopolymer first-level code must
be a DNA base character). -/
def IDType.parse (s : String) : Except String IDType := do
  let cs := s.data
  if cs.getLastD ' ' = ':' then
    throw "does not represent an ID type: it should contain 4 fields"
  let fields := getline_split cs
  if 4 < fields.length then
    throw "does not represent an ID type: it should contain 4 fields"
  if fields.length < 4 then
    throw "does not represent an ID type: it should contain 4 fields"
  let f2 := fields.getD 2 []
  if f2.length ≠ 1 then
    throw "does not represent an ID type: field 2 should be a character"
  let ft_fl : FragmentType × Nat ←
    match f2.getD 0 ' ' with
    | 'A' => pure (FragmentType.HOMOPOLYMER, 'A'.toNat)
    | 'C' => pure (FragmentType.HOMOPOLYMER, 'C'.toNat)
    | 'G' => pure (FragmentType.HOMOPOLYMER, 'G'.toNat)
    | 'T' => pure (FragmentType.HOMOPOLYMER, 'T'.toNat)
    | 'R' => do
      let n ← read_size 255 (fields.getD 0 [])
      pure (FragmentType.HETEROPOLYMER, n)
    | 'M' => do
      let n ← read_size 255 (fields.getD 0 [])
      pure (FragmentType.MICROHOMOLOGY, n)
    | _ => throw "does not represent an ID type"
  let sl0 ← read_size 255 (fields.getD 3 [])
  let ins_sl : Bool × Nat ←
    if fields.getD 1 [] = "Del".data then
      pure (false,
        if ft_fl.1 ≠ FragmentType.MICROHOMOLOGY then (sl0 + 1) % 256 else sl0)
    else if fields.getD 1 [] = "Ins".data then
      pure (true, sl0)
    else
      throw "does not represent an ID type: field 1 should be Ins or Del"
  if ft_fl.1 = FragmentType.HOMOPOLYMER ∧
      ¬ is_a_DNA_base (Char.ofNat ft_fl.2) then
    throw "IDContext: unknown base"
  pure { ftype := ft_fl.1, fl_code := ft_fl.2, sl_code := ins_sl.2,
         insertion := ins_sl.1 }

/-! ### `SBSContextIndex::build_index_in_seq`
(sbs_context_index.hpp:213-269)

The scan of one chromosome sequence.  Genomic regions to avoid are
modelled from the spec (genomic_region.hpp is not among the sources)
as closed position intervals `(begin, end)` with
`ends_before(pos) ↔ end < pos` and
`contains(pos) ↔ begin ≤ pos ≤ end`; `regions_to_avoid` is the
sorted run of this chromosome's regions, and the initial
`lower_bound({{chr_id, 0}, 1})` iterator is its head.  The context
automaton (`ExtendedContextAutomaton`, sbs_context.hpp, also not among
the sources) is modelled from the spec: a scanner holding the last
three fed characters whose state is a valid context exactly when all
three are DNA bases; its context is that three-character window. -/

/-- Modelled from the spec: the automaton state update — keep the last
three fed characters. -/
def automaton_update (w : List Char) (c : Char) : List Char :=
  let w1 := w ++ [c]
  w1.drop (w1.length - 3)

/-- Modelled from the spec: `ExtendedContextAutomaton::read_a_context`. -/
def read_a_context (w : List Char) : Bool :=
  w.length = 3 && w.all is_a_DNA_base

/-- `SBSContextIndex::update_skipped_contexts`
(sbs_context_index.hpp:163-173): increment the counter of the context
code, report and reset when it reaches `sampling_delta`. -/
def update_skipped_contexts (skipped : List Char → Nat) (code : List Char)
    (sampling_delta : Nat) : Bool × (List Char → Nat) :=
  let v := skipped code + 1
  if v = sampling_delta then (true, fun x => if x = code then 0 else skipped x)
  else (false, fun x => if x = code then v else skipped x)

/-- The mutable state of the scanning loop. -/
structure SbsState where
  position : Nat
  region_it : List (Nat × Nat)
  window : List Char
  skipped_contexts : List Char → Nat

/-- One iteration of the `while` loop of `build_index_in_seq`
(sbs_context_index.hpp:229-262) on an in-sequence character (the loop
stops before any header character, which the model excludes from its
input).  Returns the updated state and the insertion performed, if
any. -/
def sbs_step (chr_id sampling_delta : Nat) (st : SbsState) (c : Char) :
    SbsState × Option (List Char × (Nat × Nat)) :=
  if is_a_DNA_base c || c = 'N' then
    let position := st.position + 1
    let region_it :=
      match st.region_it with
      | r :: rest => if r.2 < position then rest else st.region_it
      | [] => []
    let c1 :=
      match region_it with
      | r :: _ => if r.1 ≤ position && position ≤ r.2 then 'N' else c
      | [] => c
    let window := automaton_update st.window c1
    if read_a_context window then
      let u := update_skipped_contexts st.skipped_contexts window sampling_delta
      ({ position := position, region_it := region_it, window := window,
         skipped_contexts := u.2 },
       if u.1 then some (window, (chr_id, position - 2)) else none)
    else
      ({ position := position, region_it := region_it, window := window,
         skipped_contexts := st.skipped_contexts }, none)
  else (st, none)

/-- Run the scan loop over a character sequence, collecting the
per-character insertions. -/
def sbs_run (chr_id sampling_delta : Nat) (st : SbsState) :
    List Char → SbsState × List (Option (List Char × (Nat × Nat)))
  | [] => (st, [])
  | c :: cs =>
    let r := sbs_step chr_id sampling_delta st c
    let rest := sbs_run chr_id sampling_delta r.1 cs
    (rest.1, r.2 :: rest.2)

/-- The scan of a whole chromosome sequence: position counter at 0, a
fresh automaton, zeroed skip counters
(`init_skipped_contexts`, sbs_context_index.hpp:140-149), and the
region iterator at the first region. -/
def sbs_scan (chr_id sampling_delta : Nat) (regions : List (Nat × Nat))
    (seq : List Char) : List (Option (List Char × (Nat × Nat))) :=
  (sbs_run chr_id sampling_delta
    { position := 0, region_it := regions, window := [],
      skipped_contexts := fun _ => 0 } seq).2

/-! Spec-side characterisation used to state the SBS-scan claim. -/

/-- Whether 1-based position `p` lies inside any region of `rs`. -/
def region_mem (p : Nat) (rs : List (Nat × Nat)) : Bool :=
  rs.any (fun r => r.1 ≤ p && p ≤ r.2)

/-- The character the automaton is fed at 1-based position `p`:
the sequence character, masked to `'N'` inside a region to avoid. -/
def masked_char (seq : List Char) (rs : List (Nat × Nat)) (p : Nat) : Char :=
  if region_mem p rs then 'N' else seq.getD (p-1) 'N'

/-- The three-character context ending at position `p`. -/
def ctx_at (seq : List Char) (rs : List (Nat × Nat)) (p : Nat) : List Char :=
  [masked_char seq rs (p-2), masked_char seq rs (p-1), masked_char seq rs p]

/-- Whether the automaton holds a valid context after position `p`. -/
def valid_at (seq : List Char) (rs : List (Nat × Nat)) (p : Nat) : Bool :=
  3 ≤ p && (ctx_at seq rs p).all is_a_DNA_base

/-- The number of admissible occurrences of context `code` at
positions `1..p`. -/
def occ_upto (seq : List Char) (rs : List (Nat × Nat)) (code : List Char)
    (p : Nat) : Nat :=
  ((List.range p).filter
    (fun q => valid_at seq rs (q+1) && decide (ctx_at seq rs (q+1) = code))).length

/-- Whether a fallible call failed. -/
def is_error : Except String β → Bool
  | .error _ => true
  | .ok _ => false

/-- The values of `file` read cyclically: `d` values starting at
ordinal `idx` (callers keep `idx < file.length`). -/
def cyc_take (file : List α) : Nat → Nat → List α
  | _, 0 => []
  | idx, d+1 =>
    match file[idx]? with
    | some v => v :: cyc_take file ((idx+1) % file.length) d
    | none => []

/-- How many values a circular load can still read before reaching the
tour start `i0` from ordinal `idx`. -/
def circ_avail (N i0 : Nat) (init : Bool) (idx : Nat) : Nat :=
  if init then N else (i0 + N - idx) % N

/-- The read position a circular load returns. -/
def circ_end (N i0 slots pos d : Nat) : Nat :=
  if d < slots then i0
  else if d = 0 then pos
  else ((pos % N + d - 1) % N) + 1

/-- Invariant of the chunk-distribution loop. -/
def SplitInv (n : Nat) (s : SplitState α) : Prop :=
  s.chunks.length = n ∧ s.positions.length = n ∧ s.last_chunk < n ∧
    ∀ x ∈ s.positions, x < n

/-- The region-iterator state once the scan position has reached `p`:
the regions whose end has not yet been passed. -/
def reg_suffix (regions : List (Nat × Nat)) (p : Nat) : List (Nat × Nat) :=
  regions.dropWhile (fun r => decide (r.2 < p))

/-- The automaton window after feeding the masked characters of
positions `1..p`: the last three of them. -/
def win_at (seq : List Char) (rs : List (Nat × Nat)) (p : Nat) :
    List Char :=
  ((List.range p).map (fun q => masked_char seq rs (q + 1))).drop (p - 3)

/-- The loop state the scan reaches after `n` in-sequence characters. -/
def sbs_state_at (delta : Nat) (regions : List (Nat × Nat))
    (seq : List Char) (n : Nat) : SbsState :=
  { position := n, region_it := reg_suffix regions n,
    window := win_at seq regions n,
    skipped_contexts := fun code => occ_upto seq regions code n % delta }

/-- The insertion the scan performs at 1-based position `p`. -/
def sbs_out_at (chr_id delta : Nat) (regions : List (Nat × Nat))
    (seq : List Char) (p : Nat) : Option (List Char × (Nat × Nat)) :=
  if valid_at seq regions p
      && decide (occ_upto seq regions (ctx_at seq regions p) p % delta = 0)
  then some (ctx_at seq regions p, (chr_id, p - 2))
  else none

/-! ## Theorems -/

theorem cons_set_perm {t : List α} {m : Nat} {b x : α} (h : t[m]? = some b) :
    (b :: t.set m x).Perm (x :: t) := by
  induction t generalizing m with
  | nil => simp at h
  | cons y t ih =>
    cases m with
    | zero =>
      simp at h
      rw [List.set_cons_zero, ← h]
      exact List.Perm.swap x y t
    | succ k =>
      simp at h
      have h1 : (b :: y :: t.set k x).Perm (y :: b :: t.set k x) :=
        List.Perm.swap y b _
      have h2 : (y :: b :: t.set k x).Perm (y :: x :: t) := (ih h).cons y
      have h3 : (y :: x :: t).Perm (x :: y :: t) := List.Perm.swap x y t
      simpa using (h1.trans h2).trans h3

theorem set_set_perm {l : List α} {i j : Nat} {a b : α}
    (ha : l[i]? = some a) (hb : l[j]? = some b) :
    ((l.set i b).set j a).Perm l := by
  induction l generalizing i j with
  | nil => simp at ha
  | cons x t ih =>
    cases i with
    | zero =>
      simp at ha
      subst ha
      cases j with
      | zero => simp
      | succ m =>
        simp at hb ⊢
        exact cons_set_perm hb
    | succ m =>
      simp at ha
      cases j with
      | zero =>
        simp at hb
        subst hb
        simp only [List.set_cons_succ, List.set_cons_zero]
        exact cons_set_perm ha
      | succ p =>
        simp at hb ⊢
        exact ih ha hb

theorem swapL_perm (l : List α) (i j : Nat) : (swapL l i j).Perm l := by
  unfold swapL
  cases ha : l[i]? with
  | none => exact List.Perm.refl l
  | some a =>
    cases hb : l[j]? with
    | none => exact List.Perm.refl l
    | some b => exact set_set_perm ha hb

theorem swapL_length (l : List α) (i j : Nat) :
    (swapL l i j).length = l.length := by
  unfold swapL
  cases ha : l[i]? with
  | none => rfl
  | some a =>
    cases hb : l[j]? with
    | none => rfl
    | some b => simp

/-- C10: for a key absent from an opened index, `num_of_values` and
`extractable_for` return 0 without failing, while `operator[]` fails. -/
theorem absent_key_queries [DecidableEq κ] (st : IndexReader κ α) (key : κ)
    (hb : st.buckets.lookup key = none)
    (hi : st.bucket_iterators.lookup key = none) :
    st.num_of_values key = 0 ∧ st.extractable_for key = 0 ∧
    is_error (st.get key) = true := by
  refine ⟨?_, ?_, ?_⟩ <;>
    simp [IndexReader.num_of_values, IndexReader.extractable_for,
          IndexReader.get, hb, hi, is_error]

/-- Witness for C10 at a concrete two-key index and the absent key 5. -/
theorem absent_key_queries_witness :
    (IndexReader.num_of_values
        ({ buckets := [(1, [true, false]), (2, [])], bucket_iterators := [] } :
          IndexReader Nat Bool) 5 = 0)
    ∧ (IndexReader.extractable_for
        ({ buckets := [(1, [true, false]), (2, [])], bucket_iterators := [] } :
          IndexReader Nat Bool) 5 = 0)
    ∧ is_error (IndexReader.get
        ({ buckets := [(1, [true, false]), (2, [])], bucket_iterators := [] } :
          IndexReader Nat Bool) 5) = true :=
  absent_key_queries _ 5 (by decide) (by decide)

theorem select_from_class_range [DecidableEq κ] (st : IndexReader κ α)
    (fb : κ) (cls : List κ) :
    (List.range ((cls.map st.extractable_for).sum)).map
        (fun p => select_from_class st cls p fb)
      = cls.flatMap (fun k => List.replicate (st.extractable_for k) k) := by
  induction cls with
  | nil => simp
  | cons k rest ih =>
    simp only [List.map_cons, List.sum_cons, List.flatMap_cons]
    rw [List.range_add, List.map_append]
    congr 1
    · apply List.ext_getElem
      · simp
      · intro i h1 h2
        simp only [List.getElem_map, List.getElem_range, List.getElem_replicate]
        rw [select_from_class]
        simp only [List.length_map, List.length_range] at h1
        simp [h1]
    · rw [List.map_map, ← ih]
      apply List.map_congr_left
      intro p hp
      simp only [Function.comp_apply]
      rw [select_from_class]
      simp

theorem count_flatMap_replicate [DecidableEq κ] (avail : κ → Nat)
    (cls : List κ) (hnd : cls.Nodup) (other : κ) (hmem : other ∈ cls) :
    (cls.flatMap (fun k => List.replicate (avail k) k)).count other
      = avail other := by
  induction cls with
  | nil => simp at hmem
  | cons k rest ih =>
    simp only [List.flatMap_cons, List.count_append, List.count_replicate]
    rcases List.mem_cons.mp hmem with h | h
    · subst h
      have hnotin : other ∉ rest := (List.nodup_cons.mp hnd).1
      have hz : (rest.flatMap (fun k => List.replicate (avail k) k)).count other = 0 := by
        rw [List.count_eq_zero]
        intro hc
        rcases List.mem_flatMap.mp hc with ⟨k2, hk2, hin⟩
        rcases List.eq_of_mem_replicate hin with rfl
        exact hnotin hk2
      simp [hz]
    · have hne : k ≠ other := by
        intro he
        exact (List.nodup_cons.mp hnd).1 (he ▸ h)
      rw [ih (List.nodup_cons.mp hnd).2 h]
      simp [hne]

/-- C4: `extract_from_class` fails exactly on a zero class total;
otherwise it draws `p` uniformly below the total of the per-key
extractable counts and walks the class, and each class key is selected
for exactly its own extractable count of the possible draws `p` —
a quantity independent of the chosen representative. -/
theorem extract_from_class_spec [DecidableEq κ] (st : IndexReader κ α)
    (get_class_of : κ → List κ) (g : RngState) (key : κ)
    (hnd : (get_class_of key).Nodup) :
    (((get_class_of key).map st.extractable_for).sum = 0 →
        is_error (st.extract_from_class get_class_of g key) = true)
    ∧ (((get_class_of key).map st.extractable_for).sum ≠ 0 →
        st.extract_from_class get_class_of g key =
          .ok (select_from_class st (get_class_of key)
                (g.f g.k % ((get_class_of key).map st.extractable_for).sum) key))
    ∧ (∀ other ∈ get_class_of key,
        ((List.range ((get_class_of key).map st.extractable_for).sum).map
            (fun p => select_from_class st (get_class_of key) p key)).count other
          = st.extractable_for other) := by
  refine ⟨?_, ?_, ?_⟩
  · intro h0
    simp [IndexReader.extract_from_class, h0, is_error]
  · intro h0
    simp [IndexReader.extract_from_class, h0, RngState.draw]
  · intro other hmem
    rw [select_from_class_range]
    exact count_flatMap_replicate st.extractable_for _ hnd other hmem

/-- Witness for C4: class `[1, 2]` with extractable counts 2 and 1. -/
theorem extract_from_class_spec_witness :
    (([(1 : Nat), 2].map (IndexReader.extractable_for
        ({ buckets := [(1, [10, 20]), (2, [30])], bucket_iterators := [] } :
          IndexReader Nat Nat))).sum = 0 →
      is_error (IndexReader.extract_from_class
        ({ buckets := [(1, [10, 20]), (2, [30])], bucket_iterators := [] } :
          IndexReader Nat Nat) (fun _ => [1, 2]) ⟨fun k => k, 0⟩ 1) = true)
    ∧ (([(1 : Nat), 2].map (IndexReader.extractable_for
        ({ buckets := [(1, [10, 20]), (2, [30])], bucket_iterators := [] } :
          IndexReader Nat Nat))).sum ≠ 0 →
      IndexReader.extract_from_class
        ({ buckets := [(1, [10, 20]), (2, [30])], bucket_iterators := [] } :
          IndexReader Nat Nat) (fun _ => [1, 2]) ⟨fun k => k, 0⟩ 1 =
        .ok (select_from_class
          ({ buckets := [(1, [10, 20]), (2, [30])], bucket_iterators := [] } :
            IndexReader Nat Nat) [1, 2]
          ((fun (k : Nat) => k) 0 % ([(1 : Nat), 2].map (IndexReader.extractable_for
            ({ buckets := [(1, [10, 20]), (2, [30])], bucket_iterators := [] } :
              IndexReader Nat Nat))).sum) 1))
    ∧ (∀ other ∈ [(1 : Nat), 2],
        ((List.range (([(1 : Nat), 2].map (IndexReader.extractable_for
            ({ buckets := [(1, [10, 20]), (2, [30])], bucket_iterators := [] } :
              IndexReader Nat Nat))).sum)).map
          (fun p => select_from_class
            ({ buckets := [(1, [10, 20]), (2, [30])], bucket_iterators := [] } :
              IndexReader Nat Nat) [1, 2] p 1)).count other
          = IndexReader.extractable_for
            ({ buckets := [(1, [10, 20]), (2, [30])], bucket_iterators := [] } :
              IndexReader Nat Nat) other) :=
  extract_from_class_spec _ (fun _ => [1, 2]) ⟨fun k => k, 0⟩ 1 (by decide)

/-- C9 counterexample: create a writer with `sizeof(VALUE) = 8` and
cache size 16 (capacity 2), then `set_cache_size(8)`.  The claim says
the capacity afterwards is `⌊8/8⌋ = 1`, so `get_cache_size()` should
return 8; the code (via `std::vector::reserve`, which never shrinks)
keeps capacity 2 and `get_cache_size()` returns 16. -/
theorem set_cache_size_shrink_cex :
    ((mkBucketWriter Nat 8 16).bind
        (fun w => w.set_cache_size 8 8)).map (BucketWriter.get_cache_size 8)
      = .ok 16 ∧ ((8:Nat) / 8) * 8 = 8 ∧ (16 : Nat) ≠ 8 :=
  ⟨rfl, rfl, by decide⟩

/-- C9 (amended): `set_cache_size(C)` fails when `C < S`; when
`⌊C/S⌋` is smaller than the number of cached values it flushes first;
after a successful call the capacity is `max(previous capacity, ⌊C/S⌋)`
(`std::vector::reserve` never shrinks), `get_cache_size()` returns that
capacity times `S`, and `push_back` never grows the cache beyond the
capacity. -/
theorem set_cache_size_spec (S : Nat) (w : BucketWriter α) (C : Nat) :
    (C < S → is_error (w.set_cache_size S C) = true)
    ∧ (S ≤ C → C / S < w.cache.length →
        w.set_cache_size S C = .ok { w.flush with cap := max w.cap (C / S) })
    ∧ (S ≤ C → w.cache.length ≤ C / S →
        w.set_cache_size S C = .ok { w with cap := max w.cap (C / S) })
    ∧ (∀ w2, w.set_cache_size S C = .ok w2 →
        w2.cap = max w.cap (C / S) ∧
        w2.get_cache_size S = max w.cap (C / S) * S)
    ∧ (∀ (w2 : BucketWriter α) v, 1 ≤ w2.cap → w2.cache.length ≤ w2.cap →
        (w2.push_back v).cache.length ≤ w2.cap ∧ (w2.push_back v).cap = w2.cap) := by
  refine ⟨?_, ?_, ?_, ?_, ?_⟩
  · intro h
    simp [BucketWriter.set_cache_size, h, is_error]
  · intro h1 h2
    rw [BucketWriter.set_cache_size, if_neg (by omega)]
    simp [h2, BucketWriter.flush]
  · intro h1 h2
    rw [BucketWriter.set_cache_size, if_neg (by omega)]
    simp [Nat.not_lt.mpr h2]
  · intro w2 h
    rw [BucketWriter.set_cache_size] at h
    by_cases hc : C < S
    · simp [hc] at h
    · rw [if_neg hc] at h
      simp only [Except.ok.injEq] at h
      split at h <;> simp [← h, BucketWriter.get_cache_size, BucketWriter.flush]
  · intro w2 v h1 h2
    rw [BucketWriter.push_back]
    by_cases he : w2.cache.length = w2.cap
    · simp [he, BucketWriter.flush]
      omega
    · simp [he]
      omega

/-- Witness for C9's amended theorem: shrinking a writer holding three
cached values (capacity 3) to one cacheable value flushes and keeps
capacity 3; `get_cache_size` reports 24. -/
theorem set_cache_size_spec_witness :
    BucketWriter.set_cache_size 8
        ({ file := [], cache := [5, 6, 7], cap := 3 } : BucketWriter Nat) 8
      = .ok { file := [5, 6, 7], cache := [], cap := 3 } ∧
    BucketWriter.get_cache_size 8
        ({ file := [5, 6, 7], cache := [], cap := 3 } : BucketWriter Nat) = 24 := by
  have h := set_cache_size_spec 8
    ({ file := [], cache := [5, 6, 7], cap := 3 } : BucketWriter Nat) 8
  refine ⟨?_, ?_⟩
  · have := h.2.1 (by decide) (by decide)
    simpa [BucketWriter.flush] using this
  · have := (h.2.2.2.1 { file := [5, 6, 7], cache := [], cap := 3 } ?_).2
    · simpa using this
    · have h2 := h.2.1 (by decide) (by decide)
      simpa [BucketWriter.flush] using h2

/-- C8: IDType string parsing — the four well-formed inputs yield the
listed fragment type, first level code (the base character for
homopolymers), second level code (the written number plus one for
non-microhomology deletions) and insertion flag, and each of the eight
malformed inputs fails with a parse error. -/
theorem idtype_parsing_spec :
    IDType.parse "2:Del:R:0" =
      .ok { ftype := FragmentType.HETEROPOLYMER, fl_code := 2, sl_code := 1,
            insertion := false }
    ∧ IDType.parse "1:Del:C:3" =
      .ok { ftype := FragmentType.HOMOPOLYMER, fl_code := 'C'.toNat, sl_code := 4,
            insertion := false }
    ∧ IDType.parse "3:Ins:R:0" =
      .ok { ftype := FragmentType.HETEROPOLYMER, fl_code := 3, sl_code := 0,
            insertion := true }
    ∧ IDType.parse "3:Del:M:1" =
      .ok { ftype := FragmentType.MICROHOMOLOGY, fl_code := 3, sl_code := 1,
            insertion := false }
    ∧ is_error (IDType.parse "2:Del:R:0:") = true
    ∧ is_error (IDType.parse "2:Dela:R:0") = true
    ∧ is_error (IDType.parse "-2:Del:R:0") = true
    ∧ is_error (IDType.parse "2:Del:R:-10") = true
    ∧ is_error (IDType.parse "2:Del:S:0") = true
    ∧ is_error (IDType.parse "2:Del:R:") = true
    ∧ is_error (IDType.parse "2:Del:R") = true
    ∧ is_error (IDType.parse "2:Del:R:0:A") = true :=
  ⟨rfl, rfl, rfl, rfl, rfl, rfl, rfl, rfl, rfl, rfl, rfl, rfl⟩

theorem load_buffer_spec (file : List α) :
    ∀ (slots pos : Nat), pos ≤ file.length →
    load_buffer file slots pos
      = ((file.drop pos).take slots, pos + min slots (file.length - pos)) := by
  intro slots
  induction slots with
  | zero => intro pos h; simp [load_buffer]
  | succ n ih =>
    intro pos h
    rw [load_buffer]
    by_cases he : pos = file.length
    · subst he
      simp
    · have hlt : pos < file.length := lt_of_le_of_ne h he
      rw [if_neg he, List.getElem?_eq_getElem hlt]
      simp only
      rw [ih (pos+1) hlt, List.drop_eq_getElem_cons hlt]
      rw [List.take_succ_cons, Prod.mk.injEq]
      exact ⟨rfl, by omega⟩

theorem seq_emit_drop (file : List α) (B : Nat) (hB : 1 ≤ B) :
    ∀ (fuel s i : Nat), s ≤ file.length →
      (i < min B (file.length - s) ∨ (i = 0 ∧ s = file.length)) →
      file.length - s - i < fuel →
      seq_emit file B fuel
        { cache := (file.drop s).take B,
          read_pos := s + min B (file.length - s), index := i }
      = file.drop (s + i) := by
  intro fuel
  induction fuel with
  | zero => omega
  | succ fuel ih =>
    intro s i hs hi hfuel
    have hminle : min B (file.length - s) ≤ file.length - s := Nat.min_le_right _ _
    rw [seq_emit]
    have hlen : ((file.drop s).take B).length = min B (file.length - s) := by
      simp
    rcases hi with hi | ⟨hi0, hsl⟩
    · have hne : ¬ (SeqIter.is_end
          { cache := (file.drop s).take B,
            read_pos := s + min B (file.length - s), index := i } = true) := by
        simp [SeqIter.is_end, SeqIter.available, hlen]
        omega
      rw [if_neg hne]
      have hil : i < ((file.drop s).take B).length := by omega
      have hsi : s + i < file.length := by omega
      have hderef : (SeqIter.deref
          { cache := (file.drop s).take B,
            read_pos := s + min B (file.length - s), index := i })
          = some file[s + i] := by
        simp [SeqIter.deref]
        rw [List.getElem?_take, List.getElem?_drop, List.getElem?_eq_getElem hsi]
        simp
        omega
      rw [hderef]
      rw [seq_next]
      simp only [SeqIter.available, hlen]
      by_cases hend : i + 1 ≥ min B (file.length - s)
      · have hiv : i + 1 = min B (file.length - s) := by omega
        rw [if_pos hend]
        rw [load_buffer_spec file B (s + min B (file.length - s)) (by omega)]
        simp only
        have hminle2 : min B (file.length - (s + min B (file.length - s)))
            ≤ file.length - (s + min B (file.length - s)) := Nat.min_le_right _ _
        have hrec := ih (s + min B (file.length - s)) 0 (by omega) ?_ (by omega)
        · rw [hrec]
          have harg : s + min B (file.length - s) + 0 = s + i + 1 := by omega
          rw [harg, List.drop_eq_getElem_cons hsi]
        · by_cases hfin : s + min B (file.length - s) = file.length
          · exact Or.inr ⟨rfl, hfin⟩
          · have hlt2 : s + min B (file.length - s) < file.length := by
              omega
            exact Or.inl (lt_min_iff.mpr ⟨by omega, by omega⟩)
      · rw [if_neg hend]
        rw [ih s (i+1) hs (Or.inl (by omega)) (by omega)]
        rw [show s + (i+1) = s + i + 1 from by omega, List.drop_eq_getElem_cons hsi]
    · subst hi0
      have hend : (SeqIter.is_end
          { cache := (file.drop s).take B,
            read_pos := s + min B (file.length - s), index := 0 } = true) := by
        simp [SeqIter.is_end, SeqIter.available, hlen, hsl]
      rw [if_pos hend]
      rw [hsl]
      simp

theorem seq_iterate_eq (file : List α) (B : Nat) (hB : 1 ≤ B) :
    seq_iterate file B = file := by
  rw [seq_iterate, seq_begin]
  rw [load_buffer_spec file B 0 (by omega)]
  simp only [List.drop_zero, Nat.zero_add]
  have h0 : (0 : Nat) < min B file.length ∨ ((0:Nat) = 0 ∧ 0 = file.length) := by
    by_cases h : file.length = 0
    · exact Or.inr ⟨rfl, h.symm⟩
    · exact Or.inl (by omega)
  have := seq_emit_drop file B hB (file.length + 1) 0 0 (by omega) ?_ (by omega)
  · simpa using this
  · simpa using h0
theorem push_back_content (w : BucketWriter α) (v : α) :
    (w.push_back v).file ++ (w.push_back v).cache = w.file ++ w.cache ++ [v] := by
  rw [BucketWriter.push_back]
  by_cases h : w.cache.length = w.cap <;>
    simp [h, BucketWriter.flush]

theorem foldl_push_back_content (w : BucketWriter α) (vs : List α) :
    (vs.foldl BucketWriter.push_back w).file
        ++ (vs.foldl BucketWriter.push_back w).cache
      = w.file ++ w.cache ++ vs := by
  induction vs generalizing w with
  | nil => simp
  | cons v rest ih =>
    rw [List.foldl_cons, ih, push_back_content]
    simp

theorem bucket_get_ok (S : Nat) (hS : 1 ≤ S) (file : List α) (i : Nat)
    (h : i < file.length) : bucket_get S file i = .ok file[i] := by
  rw [bucket_get, if_neg (by omega)]
  have hN : 0 < file.length := by omega
  have hpos : get_value_pos S file.length i = i * S := by
    rw [get_value_pos, if_pos h]
    rw [show i * (file.length * S) = i * S * file.length from by ring]
    exact Nat.mul_div_cancel _ hN
  rw [hpos, read_value_at]
  rw [Nat.mul_div_cancel _ (by omega : 0 < S)]
  rw [List.getElem?_eq_getElem h]

theorem bucket_get_oob (S : Nat) (file : List α) (i : Nat)
    (h : file.length ≤ i) : is_error (bucket_get S file i) = true := by
  rw [bucket_get, if_pos (by omega)]
  rfl

/-- C2: after `push_back(v_0..v_{N-1})` and `flush` on a fresh
`BucketWriter` (created with value size `S` and cache size `C ≥ S`),
the bucket file holds `v_0..v_{N-1}` in order; sequential iteration
with any read cache of at least one value yields them in order;
`reader[i]` equals `v_i` for `i < N` and fails with an out-of-range
error for `i ≥ N`. -/
theorem bucket_write_read_spec (S C B : Nat) (hS : 1 ≤ S) (hC : S ≤ C)
    (hB : 1 ≤ B) (vs : List α) :
    mkBucketWriter α S C = .ok { file := [], cache := [], cap := C / S }
    ∧ ((vs.foldl BucketWriter.push_back
          { file := [], cache := [], cap := C / S }).flush).file = vs
    ∧ seq_iterate vs B = vs
    ∧ (∀ i, (h : i < vs.length) → bucket_get S vs i = .ok vs[i])
    ∧ (∀ i, vs.length ≤ i → is_error (bucket_get S vs i) = true) := by
  refine ⟨?_, ?_, seq_iterate_eq vs B hB, fun i h => bucket_get_ok S hS vs i h,
          fun i h => bucket_get_oob S vs i h⟩
  · rw [mkBucketWriter, BucketWriter.set_cache_size, if_neg (by omega)]
    simp
  · rw [BucketWriter.flush]
    simp only
    rw [foldl_push_back_content]
    simp

/-- Witness for C2: three `u64`-sized values through a fresh writer
with a 16-byte cache, read back with a one-value read cache. -/
theorem bucket_write_read_spec_witness :
    mkBucketWriter Nat 8 16 = .ok { file := [], cache := [], cap := 16 / 8 }
    ∧ (([3, 1, 2].foldl BucketWriter.push_back
          { file := [], cache := [], cap := 16 / 8 }).flush).file = [3, 1, 2]
    ∧ seq_iterate [3, 1, 2] 1 = [3, 1, 2]
    ∧ bucket_get 8 [3, 1, 2] 1 = .ok 1
    ∧ is_error (bucket_get 8 [3, 1, 2] 3) = true := by
  have h := bucket_write_read_spec 8 16 1 (by decide) (by decide) (by decide)
    [3, 1, 2]
  exact ⟨h.1, h.2.1, h.2.2.1, h.2.2.2.1 1 (by decide), h.2.2.2.2 3 (by decide)⟩

theorem fy_aux_perm (rng : Nat → Nat) :
    ∀ (i k : Nat) (l : List α), (fy_aux rng k i l).Perm l := by
  intro i
  induction i with
  | zero => intro k l; exact List.Perm.refl l
  | succ n ih =>
    intro k l
    rw [fy_aux]
    exact (ih (k+1) _).trans (swapL_perm l (n+1) (rng k % (n+2)))

theorem std_shuffle_perm (rng : Nat → Nat) (k : Nat) (l : List α) :
    (std_shuffle rng k l).Perm l :=
  fy_aux_perm rng (l.length - 1) k l

theorem take_min_eq (l : List α) (B : Nat) :
    l.take B = l.take (min B l.length) := by
  by_cases h : B ≤ l.length
  · rw [Nat.min_eq_left h]
  · rw [Nat.min_eq_right (by omega), List.take_length,
        List.take_of_length_le (by omega)]

theorem seq_read_all_eq (file : List α) (B : Nat) (hB : 1 ≤ B) :
    ∀ (fuel pos : Nat), pos ≤ file.length → file.length - pos < fuel →
    seq_read_all file B fuel pos = file.drop pos := by
  intro fuel
  induction fuel with
  | zero => omega
  | succ n ih =>
    intro pos hpos hfuel
    rw [seq_read_all, load_buffer_spec file B pos hpos]
    simp only
    by_cases hempty : pos = file.length
    · subst hempty
      simp
    · have hlt : pos < file.length := by omega
      have hmin : 0 < min B (file.length - pos) := by
        exact lt_min_iff.mpr ⟨by omega, by omega⟩
      rw [if_neg (by simp; omega)]
      rw [ih (pos + min B (file.length - pos)) (by omega) (by omega)]
      have hdd : file.drop (pos + min B (file.length - pos))
          = (file.drop pos).drop (min B (file.length - pos)) := by
        rw [List.drop_drop]
      rw [hdd, take_min_eq (file.drop pos) B, List.length_drop]
      exact List.take_append_drop _ _

theorem join_set_append_perm (chunks : List (List α)) (idx : Nat) (v : α)
    (h : idx < chunks.length) :
    ((chunks.set idx (chunks.getD idx [] ++ [v])).flatten).Perm
      (chunks.flatten ++ [v]) := by
  induction chunks generalizing idx with
  | nil => simp at h
  | cons c rest ih =>
    cases idx with
    | zero =>
      simp only [List.set_cons_zero, List.getD_cons_zero, List.flatten_cons]
      have e1 : (c ++ [v]) ++ rest.flatten = c ++ ([v] ++ rest.flatten) :=
        List.append_assoc c [v] rest.flatten
      have p1 : (c ++ ([v] ++ rest.flatten)).Perm (c ++ (rest.flatten ++ [v])) :=
        List.Perm.append_left c List.perm_append_comm
      rw [e1]
      exact p1.trans (by rw [List.append_assoc])
    | succ m =>
      simp only [List.set_cons_succ, List.getD_cons_succ, List.flatten_cons]
      have h2 : (c ++ (rest.set m (rest.getD m [] ++ [v])).flatten).Perm
          (c ++ (rest.flatten ++ [v])) :=
        List.Perm.append_left c (ih m (by simpa using h))
      exact h2.trans (by rw [List.append_assoc])

theorem swapL_mem (l : List α) (i j : Nat) (x : α) :
    x ∈ swapL l i j → x ∈ l :=
  fun hx => (swapL_perm l i j).mem_iff.mp hx

theorem split_step_inv (rng : Nat → Nat) (maxsz n : Nat) (s : SplitState α)
    (v : α) (hinv : SplitInv n s) :
    SplitInv n (split_step rng maxsz s v) := by
  obtain ⟨hc, hp, hl, hm⟩ := hinv
  rw [split_step]
  have hposlt : rng s.k % (s.last_chunk + 1) < s.positions.length := by
    have := Nat.mod_lt (rng s.k) (show 0 < s.last_chunk + 1 from by omega)
    omega
  have hidx : s.positions.getD (rng s.k % (s.last_chunk + 1)) 0 < n := by
    apply hm
    rw [List.getD_eq_getElem _ _ hposlt]
    exact List.getElem_mem hposlt
  split
  · refine ⟨by simpa using hc, ?_, ?_, ?_⟩
    · show (if rng s.k % (s.last_chunk + 1) ≠ s.last_chunk then
          swapL s.positions (rng s.k % (s.last_chunk + 1)) s.last_chunk
        else s.positions).length = n
      split
      · rw [swapL_length]
        exact hp
      · exact hp
    · show s.last_chunk - 1 < n
      omega
    · show ∀ x ∈ (if rng s.k % (s.last_chunk + 1) ≠ s.last_chunk then
          swapL s.positions (rng s.k % (s.last_chunk + 1)) s.last_chunk
        else s.positions), x < n
      intro x hx
      apply hm
      split at hx
      · exact swapL_mem _ _ _ _ hx
      · exact hx
  · exact ⟨by simpa using hc, hp, hl, hm⟩

theorem split_step_perm (rng : Nat → Nat) (maxsz n : Nat) (s : SplitState α)
    (v : α) (hinv : SplitInv n s) :
    ((split_step rng maxsz s v).chunks.flatten).Perm (s.chunks.flatten ++ [v]) := by
  obtain ⟨hc, hp, hl, hm⟩ := hinv
  rw [split_step]
  have hposlt : rng s.k % (s.last_chunk + 1) < s.positions.length := by
    have := Nat.mod_lt (rng s.k) (show 0 < s.last_chunk + 1 from by omega)
    omega
  have hidx : s.positions.getD (rng s.k % (s.last_chunk + 1)) 0 < s.chunks.length := by
    rw [hc]
    apply hm
    rw [List.getD_eq_getElem _ _ hposlt]
    exact List.getElem_mem hposlt
  split <;> exact join_set_append_perm s.chunks _ v hidx

theorem split_foldl_perm (rng : Nat → Nat) (maxsz n : Nat) :
    ∀ (vs : List α) (s : SplitState α), SplitInv n s →
    SplitInv n (vs.foldl (split_step rng maxsz) s) ∧
    ((vs.foldl (split_step rng maxsz) s).chunks.flatten).Perm
      (s.chunks.flatten ++ vs) := by
  intro vs
  induction vs with
  | nil => intro s hinv; exact ⟨hinv, by simp⟩
  | cons v rest ih =>
    intro s hinv
    rw [List.foldl_cons]
    obtain ⟨hinv2, hperm2⟩ := ih _ (split_step_inv rng maxsz n s v hinv)
    refine ⟨hinv2, ?_⟩
    have h1 := split_step_perm rng maxsz n s v hinv
    have h2 : ((split_step rng maxsz s v).chunks.flatten ++ rest).Perm
        ((s.chunks.flatten ++ [v]) ++ rest) := h1.append_right rest
    refine hperm2.trans (h2.trans ?_)
    rw [List.append_assoc]
    exact List.Perm.refl _

theorem split_in_random_chunks_perm (rng : Nat → Nat) (maxsz : Nat)
    (vs : List α) (k0 : Nat) :
    ((split_in_random_chunks rng maxsz vs k0).chunks.flatten).Perm vs := by
  rw [split_in_random_chunks]
  have hn : 0 < (vs.length - 1) / maxsz + 1 := Nat.succ_pos _
  have h := split_foldl_perm rng maxsz ((vs.length - 1) / maxsz + 1) vs
    { chunks := List.replicate ((vs.length - 1) / maxsz + 1) [],
      chunk_sizes := List.replicate ((vs.length - 1) / maxsz + 1) 0,
      positions := List.range ((vs.length - 1) / maxsz + 1),
      last_chunk := (vs.length - 1) / maxsz + 1 - 1, k := k0 }
    ⟨by simp, by simp, by exact Nat.lt_succ_self _,
     by intro x hx; simpa using List.mem_range.mp hx⟩
  refine h.2.trans ?_
  rw [show (List.replicate ((vs.length - 1) / maxsz + 1) ([] : List α)).flatten
        = [] from by simp]
  simp

theorem chunk_shuffle_foldl_perm (rng : Nat → Nat) :
    ∀ (chunks : List (List α)) (acc : List α × Nat),
    ((chunks.foldl
        (fun (acc : List α × Nat) c =>
          (acc.1 ++ std_shuffle rng acc.2 c, acc.2 + shuffle_draws c)) acc).1).Perm
      (acc.1 ++ chunks.flatten) := by
  intro chunks
  induction chunks with
  | nil => intro acc; simp
  | cons c rest ih =>
    intro acc
    rw [List.foldl_cons]
    refine (ih _).trans ?_
    simp only [List.flatten_cons]
    have h1 : (acc.1 ++ std_shuffle rng acc.2 c ++ rest.flatten).Perm
        (acc.1 ++ (c ++ rest.flatten)) := by
      rw [List.append_assoc]
      exact List.Perm.append_left acc.1
        ((std_shuffle_perm rng acc.2 c).append_right rest.flatten)
    exact h1
theorem flush_size (w : BucketWriter α) : w.flush.size = w.size := by
  rw [BucketWriter.flush, BucketWriter.size, BucketWriter.size]
  simp

theorem flush_of_size_zero (w : BucketWriter α) (h : w.size = 0) :
    w.flush = w := by
  rw [BucketWriter.size] at h
  obtain ⟨f, c, cap⟩ := w
  simp_all [BucketWriter.flush, List.length_eq_zero]

theorem shuffle_in_memory_perm (rng : Nat → Nat) (w : BucketWriter α) (k : Nat) :
    ((shuffle_in_memory rng w k).1).file.Perm (w.file ++ w.cache) := by
  rw [shuffle_in_memory]
  by_cases h : w.flush.size = 0
  · rw [if_pos h]
    exact List.Perm.refl _
  · rw [if_neg h]
    exact std_shuffle_perm rng k w.flush.file

theorem shuffle_on_disk_spec (rng : Nat → Nat) (S bs : Nat)
    (w : BucketWriter α) (k : Nat) :
    (w.size = 0 → shuffle_on_disk rng S bs w k = .ok (w.flush, k))
    ∧ (w.size ≠ 0 → (bs / 2) / S = 0 →
        is_error (shuffle_on_disk rng S bs w k) = true)
    ∧ (w.size ≠ 0 → 1 ≤ (bs / 2) / S →
        shuffle_on_disk rng S bs w k ≠ .error
          "BucketWriter::shuffle_on_disk(): the minimum buffer size is 2*sizeof(VALUE)."
        ∧ ∀ w2 k2, shuffle_on_disk rng S bs w k = .ok (w2, k2) →
            w2.file.Perm (w.file ++ w.cache)) := by
  have hsz : w.flush.size = w.size := flush_size w
  refine ⟨?_, ?_, ?_⟩
  · intro h
    rw [shuffle_on_disk, if_pos (by omega)]
  · intro h h0
    rw [shuffle_on_disk, if_neg (by omega), h0]
    simp [is_error]
  · intro h h1
    constructor
    · rw [shuffle_on_disk, if_neg (by omega), if_neg (by omega)]
      simp
    · intro w2 k2 hok
      rw [shuffle_on_disk, if_neg (by omega), if_neg (by omega)] at hok
      simp only [Except.ok.injEq, Prod.mk.injEq] at hok
      obtain ⟨hw2, hk2⟩ := hok
      have hread : seq_read_all w.flush.file ((bs / 2) / S)
          (w.flush.file.length + 1) 0 = w.flush.file :=
        seq_read_all_eq w.flush.file _ h1 _ 0 (by omega) (by omega)
      rw [← hw2]
      simp only
      refine (chunk_shuffle_foldl_perm rng _ _).trans ?_
      simp only [List.nil_append]
      refine (split_in_random_chunks_perm rng _ _ k).trans ?_
      rw [hread]
      exact List.Perm.refl _
/-- C3: `shuffle(rng, buffer_size, tmp_dir)` leaves a bucket with
`N = 0` unchanged; every successful call (the in-memory mode chosen
when `⌊buffer_size/S⌋ ≥ N` and the on-disk mode otherwise) leaves the
multiset of stored values unchanged; the on-disk mode fails exactly
when the chunk capacity `⌊⌊buffer_size/2⌋/S⌋` is zero. -/
theorem shuffle_spec (rng : Nat → Nat) (S buffer_size : Nat)
    (w : BucketWriter α) (k : Nat) :
    (w.size = 0 → BucketWriter.shuffle rng S buffer_size w k = .ok (w, k))
    ∧ (∀ w2 k2, BucketWriter.shuffle rng S buffer_size w k = .ok (w2, k2) →
        w2.file.Perm (w.file ++ w.cache))
    ∧ (w.size ≤ buffer_size / S →
        is_error (BucketWriter.shuffle rng S buffer_size w k) = false)
    ∧ (buffer_size / S < w.size → (buffer_size / 2) / S = 0 →
        is_error (BucketWriter.shuffle rng S buffer_size w k) = true)
    ∧ (buffer_size / S < w.size → 1 ≤ (buffer_size / 2) / S →
        is_error (BucketWriter.shuffle rng S buffer_size w k) = false) := by
  have hods := shuffle_on_disk_spec rng S buffer_size w k
  refine ⟨?_, ?_, ?_, ?_, ?_⟩
  · intro h0
    rw [BucketWriter.shuffle, if_pos (by rw [h0]; exact Nat.zero_le _),
        shuffle_in_memory, if_pos (by rw [flush_size]; exact h0),
        flush_of_size_zero w h0]
  · intro w2 k2 hok
    rw [BucketWriter.shuffle] at hok
    split at hok
    · simp only [Except.ok.injEq] at hok
      have := shuffle_in_memory_perm rng w k
      rw [hok] at this
      exact this
    · rename_i hcond
      have hszpos : w.size ≠ 0 := by
        intro hz
        exact hcond (by rw [hz]; exact Nat.zero_le _)
      by_cases hcc : 1 ≤ (buffer_size / 2) / S
      · exact (hods.2.2 hszpos hcc).2 w2 k2 hok
      · exfalso
        have := hods.2.1 hszpos (Nat.lt_one_iff.mp (Nat.not_le.mp hcc))
        rw [hok] at this
        simp [is_error] at this
  · intro hle
    rw [BucketWriter.shuffle, if_pos hle]
    simp [is_error]
  · intro hgt h0
    have hszpos : w.size ≠ 0 := (lt_of_le_of_lt (Nat.zero_le _) hgt).ne'
    rw [BucketWriter.shuffle, if_neg (Nat.not_le.mpr hgt)]
    exact hods.2.1 hszpos h0
  · intro hgt h1
    have hszpos : w.size ≠ 0 := (lt_of_le_of_lt (Nat.zero_le _) hgt).ne'
    rw [BucketWriter.shuffle, if_neg (Nat.not_le.mpr hgt)]
    rw [shuffle_on_disk]
    rw [if_neg (by rw [flush_size]; exact hszpos)]
    rw [if_neg (Nat.pos_iff_ne_zero.mp h1)]
    simp [is_error]
/-- Witness for C3: an on-disk shuffle (buffer 16 bytes, six stored
values of size 8) succeeds with chunk capacity 1; a bucket with
`N = 0` is returned unchanged; a two-value bucket with an 8-byte
buffer hits the zero-chunk-capacity failure. -/
theorem shuffle_spec_witness :
    is_error (BucketWriter.shuffle (fun n => n * 3 + 1) 8 16
        ({ file := [1, 2, 3, 4, 5], cache := [6], cap := 2 } : BucketWriter Nat) 0)
      = false
    ∧ BucketWriter.shuffle (fun n => n * 3 + 1) 8 200
        ({ file := [], cache := [], cap := 2 } : BucketWriter Nat) 0
      = .ok ({ file := [], cache := [], cap := 2 }, 0)
    ∧ is_error (BucketWriter.shuffle (fun n => n * 3 + 1) 8 8
        ({ file := [7, 9], cache := [], cap := 2 } : BucketWriter Nat) 0)
      = true :=
  ⟨(shuffle_spec (fun n => n * 3 + 1) 8 16
      ({ file := [1, 2, 3, 4, 5], cache := [6], cap := 2 } : BucketWriter Nat)
      0).2.2.2.2 (by decide) (by decide),
   (shuffle_spec (fun n => n * 3 + 1) 8 200
      ({ file := [], cache := [], cap := 2 } : BucketWriter Nat) 0).1 (by decide),
   (shuffle_spec (fun n => n * 3 + 1) 8 8
      ({ file := [7, 9], cache := [], cap := 2 } : BucketWriter Nat)
      0).2.2.2.1 (by decide) (by decide)⟩

theorem mod_cases (a N : Nat) (hN : 0 < N) (h : a < 2 * N) :
    a % N = if a < N then a else a - N := by
  split
  · exact Nat.mod_eq_of_lt (by assumption)
  · rw [Nat.mod_eq_sub_mod (by omega), Nat.mod_eq_of_lt (by omega)]

theorem diff_mod (N i0 x : Nat) (hN : 0 < N) (hi0 : i0 < N) (hx : x < N) :
    (i0 + N - x) % N = if x ≤ i0 then i0 - x else i0 + N - x := by
  rcases le_or_lt x i0 with h | h
  · rw [if_pos h]
    have he : i0 + N - x = (i0 - x) + N := by omega
    rw [he, Nat.add_mod_right, Nat.mod_eq_of_lt (by omega)]
  · rw [if_neg (by omega)]
    exact Nat.mod_eq_of_lt (by omega)

theorem succ_mod (N x : Nat) (hx : x < N) :
    (x + 1) % N = if x + 1 = N then 0 else x + 1 := by
  split
  · rename_i h
    rw [h, Nat.mod_self]
  · exact Nat.mod_eq_of_lt (by omega)

theorem circ_avail_pos (N i0 : Nat) (init : Bool) (x : Nat) (hN : 0 < N)
    (hi0 : i0 < N) (hx : x < N) (hno : ¬(x = i0 ∧ init = false)) :
    1 ≤ circ_avail N i0 init x := by
  cases init with
  | true =>
    rw [circ_avail]
    simp only [if_true]
    omega
  | false =>
    have hne : x ≠ i0 := fun he => hno ⟨he, rfl⟩
    rw [circ_avail]
    simp only [Bool.false_eq_true, if_false]
    rw [diff_mod N i0 x hN hi0 hx]
    split <;> omega

theorem circ_avail_succ (N i0 : Nat) (init : Bool) (x : Nat) (hN : 0 < N)
    (hi0 : i0 < N) (hx : x < N) (hno : ¬(x = i0 ∧ init = false))
    (hinit : init = true → x = i0) :
    circ_avail N i0 false ((x + 1) % N) = circ_avail N i0 init x - 1 := by
  have hmlt : (x + 1) % N < N := Nat.mod_lt _ hN
  rw [circ_avail, circ_avail]
  simp only [Bool.false_eq_true, if_false]
  rw [diff_mod N i0 ((x+1) % N) hN hi0 hmlt, succ_mod N x hx]
  cases init with
  | true =>
    have hx0 : x = i0 := hinit rfl
    subst hx0
    simp only [if_true]
    by_cases hw : x + 1 = N
    · rw [if_pos hw]
      split <;> omega
    · rw [if_neg hw]
      split <;> omega
  | false =>
    have hne : x ≠ i0 := fun he => hno ⟨he, rfl⟩
    simp only [Bool.false_eq_true, if_false]
    rw [diff_mod N i0 x hN hi0 hx]
    by_cases hw : x + 1 = N
    · rw [if_pos hw]
      split
      · split <;> omega
      · split <;> omega
    · rw [if_neg hw]
      split
      · split <;> omega
      · split <;> omega

theorem circ_end_succ (N i0 slots pos d2 : Nat) (hN : 0 < N) :
    circ_end N i0 slots (pos % N + 1) d2 = circ_end N i0 (slots + 1) pos (d2 + 1) := by
  have hplt : pos % N < N := Nat.mod_lt _ hN
  by_cases hlt : d2 < slots
  · rw [circ_end, circ_end, if_pos hlt,
        if_pos (show d2 + 1 < slots + 1 from by omega)]
  · by_cases hz : d2 = 0
    · subst hz
      rw [circ_end, circ_end, if_neg hlt, if_pos rfl,
          if_neg (show ¬ (0 + 1 < slots + 1) from by omega),
          if_neg (show ¬ ((0 : Nat) + 1 = 0) from by omega)]
      rw [show pos % N + (0 + 1) - 1 = pos % N from by omega,
          Nat.mod_eq_of_lt hplt]
    · rw [circ_end, circ_end, if_neg hlt, if_neg hz,
          if_neg (show ¬ (d2 + 1 < slots + 1) from by omega),
          if_neg (show ¬ (d2 + 1 = 0) from by omega)]
      congr 1
      rw [show (pos % N + 1) % N + d2 - 1 = (pos % N + 1) % N + (d2 - 1) from by omega,
          Nat.mod_add_mod]
      congr 1
      omega

theorem load_circ_spec (file : List α) (i0 : Nat) (hi0 : i0 < file.length) :
    ∀ (slots : Nat) (init : Bool) (pos : Nat), pos ≤ file.length →
      (init = true → pos = i0) →
      load_circ file i0 slots init pos =
        (cyc_take file (pos % file.length)
           (min slots (circ_avail file.length i0 init (pos % file.length))),
         circ_end file.length i0 slots pos
           (min slots (circ_avail file.length i0 init (pos % file.length)))) := by
  have hN : 0 < file.length := by omega
  intro slots
  induction slots with
  | zero =>
    intro init pos hpos hinit
    rw [load_circ, Nat.zero_min, cyc_take, circ_end]
    simp
  | succ slots ih =>
    intro init pos hpos hinit
    rw [load_circ]
    have hpos1 : (if pos = file.length then 0 else pos) = pos % file.length := by
      by_cases h : pos = file.length
      · simp [h]
      · rw [if_neg h, Nat.mod_eq_of_lt (by omega)]
    rw [hpos1]
    have hplt : pos % file.length < file.length := Nat.mod_lt _ hN
    by_cases hstop : pos % file.length = i0 ∧ init = false
    · obtain ⟨hs1, hs2⟩ := hstop
      rw [if_pos ⟨hs1, hs2⟩]
      have havail : circ_avail file.length i0 init (pos % file.length) = 0 := by
        rw [hs2, circ_avail]
        simp only [Bool.false_eq_true, if_false]
        rw [hs1, diff_mod _ _ _ hN hi0 hi0, if_pos (Nat.le_refl _)]
        omega
      rw [havail, Nat.min_zero, cyc_take, circ_end, if_pos (by omega), hs1]
    · rw [if_neg hstop]
      have havail1 : 1 ≤ circ_avail file.length i0 init (pos % file.length) :=
        circ_avail_pos _ _ _ _ hN hi0 hplt hstop
      rw [List.getElem?_eq_getElem hplt]
      simp only
      have hinitpos : init = true → pos % file.length = i0 := by
        intro h
        rw [hinit h, Nat.mod_eq_of_lt hi0]
      have hinit1 : (if pos % file.length = i0 then false else init) = false := by
        by_cases h : pos % file.length = i0
        · rw [if_pos h]
        · rw [if_neg h]
          cases init with
          | false => rfl
          | true => exact absurd (hinitpos rfl) h
      rw [hinit1]
      rw [ih false (pos % file.length + 1) (by omega) (by simp)]
      have hstep := circ_avail_succ file.length i0 init (pos % file.length)
        hN hi0 hplt hstop hinitpos
      rw [hstep]
      have hd : min (slots + 1) (circ_avail file.length i0 init (pos % file.length))
          = min slots (circ_avail file.length i0 init (pos % file.length) - 1) + 1 := by
        omega
      rw [hd]
      rw [Prod.mk.injEq]
      constructor
      · rw [cyc_take]
        rw [List.getElem?_eq_getElem hplt]
      · exact circ_end_succ file.length i0 slots pos _ hN

theorem cyc_take_length (file : List α) (hN : 0 < file.length) :
    ∀ (d idx : Nat), idx < file.length → (cyc_take file idx d).length = d := by
  intro d
  induction d with
  | zero => intro idx h; rw [cyc_take]; rfl
  | succ n ih =>
    intro idx h
    rw [cyc_take, List.getElem?_eq_getElem h]
    simp only [List.length_cons]
    rw [ih _ (Nat.mod_lt _ hN)]

theorem cyc_take_add (file : List α) (hN : 0 < file.length) :
    ∀ (d e idx : Nat), idx < file.length →
    cyc_take file idx (d + e)
      = cyc_take file idx d ++ cyc_take file ((idx + d) % file.length) e := by
  intro d
  induction d with
  | zero =>
    intro e idx h
    rw [cyc_take, Nat.add_zero, Nat.mod_eq_of_lt h]
    simp
  | succ n ih =>
    intro e idx h
    rw [show n + 1 + e = (n + e) + 1 from by omega]
    rw [cyc_take, List.getElem?_eq_getElem h]
    rw [cyc_take, List.getElem?_eq_getElem h]
    simp only [List.cons_append, List.cons.injEq, true_and]
    rw [ih e _ (Nat.mod_lt _ hN)]
    congr 2
    rw [Nat.mod_add_mod]
    congr 1
    omega

theorem cyc_take_eq (file : List α) (hN : 0 < file.length) :
    ∀ (d idx : Nat), idx < file.length → d ≤ file.length →
    cyc_take file idx d = (file.drop idx ++ file.take idx).take d := by
  intro d
  induction d with
  | zero => intro idx h hd; rw [cyc_take]; simp
  | succ n ih =>
    intro idx h hd
    rw [cyc_take, List.getElem?_eq_getElem h]
    rw [List.drop_eq_getElem_cons h]
    simp only [List.cons_append, List.take_succ_cons, List.cons.injEq, true_and]
    by_cases hw : idx + 1 = file.length
    · rw [show (idx + 1) % file.length = 0 from by rw [hw, Nat.mod_self]]
      rw [ih 0 (by omega) (by omega)]
      simp only [List.drop_zero, List.take_zero, List.append_nil]
      rw [show file.drop (idx + 1) = [] from by
        rw [List.drop_eq_nil_iff]
        omega]
      rw [List.nil_append, List.take_take]
      congr 1
      omega
    · rw [show (idx + 1) % file.length = idx + 1 from Nat.mod_eq_of_lt (by omega)]
      rw [ih (idx + 1) (by omega) (by omega)]
      rw [List.take_append_eq_append_take, List.take_append_eq_append_take]
      congr 1
      rw [List.take_take, List.take_take]
      congr 1
      have hlen : (file.drop (idx + 1)).length = file.length - (idx + 1) :=
        List.length_drop _ _
      omega

theorem cyc_take_perm (file : List α) (i0 : Nat) (hi0 : i0 < file.length) :
    (cyc_take file i0 file.length).Perm file := by
  have hN : 0 < file.length := by omega
  rw [cyc_take_eq file hN file.length i0 hi0 (Nat.le_refl _)]
  rw [List.take_of_length_le (by simp; omega)]
  calc (file.drop i0 ++ file.take i0).Perm (file.take i0 ++ file.drop i0) :=
        List.perm_append_comm
    _ = file := List.take_append_drop _ _


theorem circ_avail_c (N i0 c : Nat) (hN : 0 < N) (hi0 : i0 < N)
    (hc1 : 1 ≤ c) (hcN : c ≤ N) :
    circ_avail N i0 false ((i0 + c) % N) = N - c := by
  rw [circ_avail]
  simp only [Bool.false_eq_true, if_false]
  rw [mod_cases (i0 + c) N hN (by omega)]
  split
  · rw [diff_mod N i0 (i0 + c) hN hi0 (by omega)]
    split <;> omega
  · rw [diff_mod N i0 (i0 + c - N) hN hi0 (by omega)]
    split <;> omega

theorem select_spec (rng : Nat → Nat) (s : TourIt α) (h : s.cache.length ≠ 0) :
    (select_a_value rng s).cache.Perm s.cache ∧
    (select_a_value rng s).cache.length = s.cache.length ∧
    (select_a_value rng s).pos = s.pos ∧
    (select_a_value rng s).iterated = s.iterated + 1 := by
  rw [select_a_value, if_neg h]
  refine ⟨?_, ?_, rfl, rfl⟩
  · exact swapL_perm _ _ _
  · exact swapL_length _ _ _

theorem cache_singleton (s : TourIt α) (hne : s.cache.length ≠ 0)
    (hdrop : s.cache.dropLast.length = 0) :
    ∃ v, s.cache = [v] ∧ s.cache.getLast? = some v := by
  have h1 : s.cache.length = 1 := by
    have := s.cache.length_dropLast
    omega
  obtain ⟨v, hv⟩ := List.length_eq_one.mp h1
  exact ⟨v, hv, by rw [hv]; rfl⟩

theorem tour_decrement_noreload (file : List α) (B i0 : Nat) (s : TourIt α)
    (h : ¬(s.cache.dropLast.length = 0 ∧ s.pos ≠ i0)) :
    tour_decrement file B i0 s =
      { cache := s.cache.dropLast, pos := s.pos, iterated := s.iterated,
        k := s.k } := by
  rw [tour_decrement, if_neg h]

theorem tour_decrement_reload (file : List α) (B i0 : Nat) (s : TourIt α)
    (h1 : s.cache.dropLast.length = 0) (h2 : s.pos ≠ i0) :
    tour_decrement file B i0 s =
      { cache := (load_circ file i0 B false s.pos).1,
        pos := (load_circ file i0 B false s.pos).2,
        iterated := s.iterated, k := s.k } := by
  rw [tour_decrement, if_pos ⟨h1, h2⟩]

theorem tour_finish_end (i0 : Nat) (rng : Nat → Nat) (s1 : TourIt α)
    (h : tour_is_end i0 s1 = true) :
    tour_finish i0 rng s1 = { s1 with iterated := s1.iterated + 1 } := by
  rw [tour_finish, if_pos h]

theorem tour_finish_select (i0 : Nat) (rng : Nat → Nat) (s1 : TourIt α)
    (h : tour_is_end i0 s1 = false) :
    tour_finish i0 rng s1 = select_a_value rng s1 := by
  rw [tour_finish, if_neg (by rw [h]; simp)]

theorem tour_next_not_end (file : List α) (B i0 : Nat) (rng : Nat → Nat)
    (s : TourIt α) (h : tour_is_end i0 s = false) :
    tour_next file B i0 rng s
      = tour_finish i0 rng (tour_decrement file B i0 s) := by
  rw [tour_next, if_neg (by rw [h]; simp)]

theorem succ_after_mod (N a d : Nat) (hd : 1 ≤ d) :
    ((a % N + d - 1) % N + 1) % N = (a + d) % N := by
  rw [show a % N + d - 1 = a % N + (d - 1) from by omega,
      Nat.mod_add_mod,
      show a % N + (d - 1) + 1 = a % N + d from by omega,
      Nat.mod_add_mod]

theorem is_end_of_cache_ne (i0 : Nat) (s : TourIt α)
    (h : s.cache.length ≠ 0) : tour_is_end i0 s = false := by
  rw [tour_is_end]
  simp [h]

theorem tour_step (file : List α) (B i0 : Nat) (rng : Nat → Nat)
    (hi0 : i0 < file.length) (hB : 1 ≤ B)
    (s : TourIt α) (c : Nat)
    (hc1 : 1 ≤ c) (hcN : c ≤ file.length)
    (hpos : s.pos ≤ file.length)
    (hmod : s.pos % file.length = (i0 + c) % file.length)
    (hne : s.cache.length ≠ 0) :
    ∃ d, c + d ≤ file.length ∧
      (tour_next file B i0 rng s).pos ≤ file.length ∧
      (tour_next file B i0 rng s).pos % file.length
        = (i0 + (c + d)) % file.length ∧
      ((tour_next file B i0 rng s).cache.length = 0 →
        (tour_next file B i0 rng s).pos = i0 ∧ c + d = file.length) ∧
      (tour_next file B i0 rng s).cache.length = s.cache.length - 1 + d ∧
      (tour_next file B i0 rng s).iterated = s.iterated + 1 ∧
      ∃ v, tour_deref s = some v ∧
        (v :: (tour_next file B i0 rng s).cache).Perm
          (s.cache ++ cyc_take file ((i0 + c) % file.length) d) := by
  have hN : 0 < file.length := by omega
  have hnend : tour_is_end i0 s = false := is_end_of_cache_ne i0 s hne
  obtain ⟨v, hv, hvl⟩ :
      ∃ v, s.cache.getLast? = some v ∧ s.cache.dropLast ++ [v] = s.cache := by
    have hnil : s.cache ≠ [] := by
      intro h
      exact hne (by rw [h]; rfl)
    refine ⟨s.cache.getLast hnil, List.getLast?_eq_getLast _ hnil, ?_⟩
    exact List.dropLast_append_getLast hnil
  rw [tour_next_not_end file B i0 rng s hnend]
  by_cases hdrop : s.cache.dropLast.length = 0
  · -- the consumed value was the last one of the current window
    have hv2 : s.cache = [v] := by
      obtain ⟨v2, he, hg⟩ := cache_singleton s hne hdrop
      rw [hv] at hg
      rw [he, ← Option.some.inj hg]
    have hc1len : s.cache.length = 1 := by rw [hv2]; rfl
    by_cases hpi : s.pos = i0
    · -- already back at the start: the tour ends
      have hcN2 : c = file.length := by
        rw [hpi, Nat.mod_eq_of_lt hi0,
            mod_cases (i0 + c) _ hN (by omega)] at hmod
        split at hmod <;> omega
      rw [tour_decrement_noreload file B i0 s (by simp [hpi])]
      rw [tour_finish_end i0 rng _ (by rw [tour_is_end]; simp [hdrop, hpi])]
      refine ⟨0, by omega, by simpa using hpos, by simpa using hmod, ?_,
        by simp only [hdrop]; omega, rfl, v, by rw [tour_deref, hv], ?_⟩
      · intro _
        exact ⟨hpi, by omega⟩
      · rw [cyc_take]
        simp only [List.append_nil]
        rw [hv2]
        have hdn : s.cache.dropLast = [] := List.length_eq_zero.mp hdrop
        simp [hdn]
    · -- reload a fresh window
      rw [tour_decrement_reload file B i0 s hdrop hpi]
      rw [load_circ_spec file i0 hi0 B false s.pos hpos (by simp), hmod,
          circ_avail_c _ _ _ hN hi0 hc1 hcN]
      by_cases hcfull : c = file.length
      · -- nothing remains: the reload comes back empty at the start
        have hz : file.length - c = 0 := by omega
        rw [hz, Nat.min_zero]
        rw [tour_finish_end i0 rng _
          (by rw [tour_is_end, cyc_take, circ_end, if_pos (by omega)]; simp)]
        refine ⟨0, by omega, ?_, ?_, ?_, ?_, rfl, v, by rw [tour_deref, hv], ?_⟩
        · simp only [circ_end, if_pos (show 0 < B from by omega)]
          omega
        · simp only [circ_end, if_pos (show 0 < B from by omega)]
          rw [Nat.mod_eq_of_lt hi0, Nat.add_zero, hcfull, Nat.add_mod_right,
              Nat.mod_eq_of_lt hi0]
        · intro _
          constructor
          · simp only [circ_end, if_pos (show 0 < B from by omega)]
          · omega
        · rw [cyc_take]
          simp [hc1len]
        · rw [cyc_take]
          simp only [List.append_nil, cyc_take]
          rw [hv2]
      · -- a nonempty fresh window of d values is loaded
        set d := min B (file.length - c) with hd
        have hd1 : 1 ≤ d := by
          rw [hd]
          omega
        have hdle : d ≤ file.length - c := Nat.min_le_right _ _
        have hxlt : (i0 + c) % file.length < file.length := Nat.mod_lt _ hN
        have hclen : (cyc_take file ((i0 + c) % file.length) d).length = d :=
          cyc_take_length file hN d _ hxlt
        rw [tour_finish_select i0 rng _
          (is_end_of_cache_ne i0 _ (by simp only [hclen]; omega))]
        obtain ⟨hperm, hlen, hpos2, hiter⟩ :=
          select_spec rng
            ({ cache := cyc_take file ((i0 + c) % file.length) d,
               pos := circ_end file.length i0 B s.pos d,
               iterated := s.iterated, k := s.k } : TourIt α)
            (by simp only [hclen]; omega)
        refine ⟨d, by omega, ?_, ?_, ?_, ?_, ?_, v, by rw [tour_deref, hv], ?_⟩
        · rw [hpos2]
          simp only [circ_end]
          split
          · omega
          · split
            · omega
            · have := Nat.mod_lt (s.pos % file.length + d - 1) hN
              omega
        · rw [hpos2]
          simp only [circ_end]
          by_cases hlt : d < B
          · rw [if_pos hlt]
            have hdc : d = file.length - c := by
              rw [hd] at hlt ⊢
              omega
            rw [Nat.mod_eq_of_lt hi0]
            rw [show i0 + (c + d) = i0 + file.length from by omega]
            rw [Nat.add_mod_right, Nat.mod_eq_of_lt hi0]
          · rw [if_neg hlt, if_neg (by omega)]
            rw [hmod, succ_after_mod file.length (i0 + c) d hd1]
            congr 1
            omega
        · intro hc0
          rw [hlen, hclen] at hc0
          omega
        · rw [hlen, hclen, hc1len]
          omega
        · exact hiter
        · refine List.Perm.trans (List.Perm.cons v hperm) ?_
          rw [hv2]
          rfl
  · -- the window still holds values: plain decrement and reselect
    rw [tour_decrement_noreload file B i0 s (fun h => hdrop h.1)]
    rw [tour_finish_select i0 rng _ (is_end_of_cache_ne i0 _ hdrop)]
    obtain ⟨hperm, hlen, hpos2, hiter⟩ :=
      select_spec rng
        ({ cache := s.cache.dropLast, pos := s.pos,
           iterated := s.iterated, k := s.k } : TourIt α) hdrop
    refine ⟨0, by omega, by rw [hpos2]; exact hpos,
      by rw [hpos2]; simpa using hmod, ?_, ?_, hiter, v,
      by rw [tour_deref, hv], ?_⟩
    · intro hc0
      rw [hlen] at hc0
      exact absurd hc0 hdrop
    · rw [hlen]
      simp only
      rw [List.length_dropLast]
      omega
    · rw [cyc_take]
      simp only [List.append_nil]
      have h3 : (s.cache.dropLast ++ [v]).Perm s.cache := by
        rw [hvl]
      exact List.Perm.trans (List.Perm.cons v hperm)
        (List.Perm.trans (@List.perm_append_comm _ [v] s.cache.dropLast) h3)

theorem tour_init_eq (file : List α) (B i0 : Nat) (rng : Nat → Nat) :
    tour_init file B i0 rng
      = select_a_value rng
          { cache := (load_circ file i0 B true i0).1,
            pos := (load_circ file i0 B true i0).2,
            iterated := 0, k := 0 } := rfl

theorem tour_emit_succ (file : List α) (B i0 : Nat) (rng : Nat → Nat)
    (fuel : Nat) (s : TourIt α) :
    tour_emit file B i0 rng (fuel + 1) s =
      if tour_is_end i0 s then []
      else
        match tour_deref s with
        | some v =>
          v :: tour_emit file B i0 rng fuel (tour_next file B i0 rng s)
        | none => [] := rfl

theorem tour_init_spec (file : List α) (B i0 : Nat) (rng : Nat → Nat)
    (hi0 : i0 < file.length) (hB : 1 ≤ B) :
    (tour_init file B i0 rng).cache.Perm
        (cyc_take file i0 (min B file.length)) ∧
    (tour_init file B i0 rng).cache.length = min B file.length ∧
    (tour_init file B i0 rng).pos ≤ file.length ∧
    (tour_init file B i0 rng).pos % file.length
      = (i0 + min B file.length) % file.length ∧
    (tour_init file B i0 rng).iterated = 1 := by
  have hN : 0 < file.length := by omega
  have hmin1 : 1 ≤ min B file.length := by omega
  have hload := load_circ_spec file i0 hi0 B true i0 (by omega) (fun _ => rfl)
  have hl1 : (load_circ file i0 B true i0).1
      = cyc_take file i0 (min B file.length) := by
    rw [hload, Nat.mod_eq_of_lt hi0]
    simp [circ_avail]
  have hl2 : (load_circ file i0 B true i0).2
      = circ_end file.length i0 B i0 (min B file.length) := by
    rw [hload, Nat.mod_eq_of_lt hi0]
    simp [circ_avail]
  have hclen : (cyc_take file i0 (min B file.length)).length
      = min B file.length := cyc_take_length file hN _ i0 hi0
  obtain ⟨hperm, hlen, hpos, hiter⟩ :=
    select_spec rng
      ({ cache := cyc_take file i0 (min B file.length),
         pos := circ_end file.length i0 B i0 (min B file.length),
         iterated := 0, k := 0 } : TourIt α)
      (by simp only [hclen]; omega)
  rw [tour_init_eq, hl1, hl2]
  refine ⟨hperm, by rw [hlen, hclen], ?_, ?_, hiter⟩
  · rw [hpos]
    simp only [circ_end]
    split
    · omega
    · split
      · omega
      · have := Nat.mod_lt (i0 % file.length + min B file.length - 1) hN
        omega
  · rw [hpos]
    simp only [circ_end]
    by_cases hlt : min B file.length < B
    · rw [if_pos hlt]
      rw [show min B file.length = file.length from by omega,
          Nat.add_mod_right]
    · rw [if_neg hlt, if_neg (by omega)]
      rw [Nat.mod_eq_of_lt hi0,
          show i0 + min B file.length - 1 = i0 % file.length
            + min B file.length - 1 from by rw [Nat.mod_eq_of_lt hi0]]
      exact succ_after_mod file.length i0 (min B file.length) hmin1

theorem tour_emit_perm (file : List α) (B i0 : Nat) (rng : Nat → Nat)
    (hi0 : i0 < file.length) (hB : 1 ≤ B) :
    ∀ (fuel : Nat) (s : TourIt α) (c : Nat),
      1 ≤ c → c ≤ file.length →
      s.pos ≤ file.length →
      s.pos % file.length = (i0 + c) % file.length →
      (s.cache.length = 0 → s.pos = i0 ∧ c = file.length) →
      s.cache.length + (file.length - c) ≤ fuel →
      (tour_emit file B i0 rng fuel s).Perm
        (s.cache ++ cyc_take file ((i0 + c) % file.length)
          (file.length - c)) := by
  have hN : 0 < file.length := by omega
  intro fuel
  induction fuel with
  | zero =>
    intro s c hc1 hcN hpos hmod hzero hfuel
    have hlen : s.cache.length = 0 := by omega
    have hnc : file.length - c = 0 := by omega
    have h0 : tour_emit file B i0 rng 0 s = [] := rfl
    rw [h0, List.length_eq_zero.mp hlen, hnc]
    exact List.Perm.refl _
  | succ fuel ih =>
    intro s c hc1 hcN hpos hmod hzero hfuel
    by_cases hlen : s.cache.length = 0
    · obtain ⟨hpi, hcfull⟩ := hzero hlen
      have hend : tour_is_end i0 s = true := by
        rw [tour_is_end]
        simp [hlen, hpi]
      have hnc : file.length - c = 0 := by omega
      rw [tour_emit_succ, if_pos hend, List.length_eq_zero.mp hlen, hnc]
      exact List.Perm.refl _
    · obtain ⟨d, hcd, hpos2, hmod2, hzero2, hlen2, hit2, v, hvd, hperm⟩ :=
        tour_step file B i0 rng hi0 hB s c hc1 hcN hpos hmod hlen
      rw [tour_emit_succ, if_neg (by rw [is_end_of_cache_ne i0 s hlen]; simp),
          hvd]
      have hih := ih (tour_next file B i0 rng s) (c + d) (by omega) hcd
        hpos2 hmod2 hzero2 (by omega)
      have hT := cyc_take_add file hN d (file.length - (c + d))
        ((i0 + c) % file.length) (Nat.mod_lt _ hN)
      rw [Nat.mod_add_mod] at hT
      rw [show i0 + c + d = i0 + (c + d) from by omega] at hT
      rw [show d + (file.length - (c + d)) = file.length - c from by omega]
        at hT
      have h1 : (v :: tour_emit file B i0 rng fuel
            (tour_next file B i0 rng s)).Perm
          (v :: ((tour_next file B i0 rng s).cache
            ++ cyc_take file ((i0 + (c + d)) % file.length)
                 (file.length - (c + d)))) := List.Perm.cons v hih
      have h2 : ((v :: (tour_next file B i0 rng s).cache)
            ++ cyc_take file ((i0 + (c + d)) % file.length)
                 (file.length - (c + d))).Perm
          ((s.cache ++ cyc_take file ((i0 + c) % file.length) d)
            ++ cyc_take file ((i0 + (c + d)) % file.length)
                 (file.length - (c + d))) :=
        List.Perm.append_right _ hperm
      have h3 : ((s.cache ++ cyc_take file ((i0 + c) % file.length) d)
            ++ cyc_take file ((i0 + (c + d)) % file.length)
                 (file.length - (c + d))).Perm
          (s.cache ++ cyc_take file ((i0 + c) % file.length)
            (file.length - c)) := by
        rw [List.append_assoc, ← hT]
      exact h1.trans (h2.trans h3)

theorem tour_values_nil (B : Nat) (rng : Nat → Nat) :
    tour_values ([] : List α) B 0 rng = [] := by
  cases B with
  | zero => rfl
  | succ b => rfl

/-- C1: For every bucket with `N` flushed values and every cache size
`C ≥ S`, a random tour started at ordinal `i0` emits every one of the
`N` bucket values exactly once before `is_end()` becomes true;
`is_end()` holds exactly when the cache is empty and the running read
position equals the initial position; and the tour over an empty
bucket emits nothing. -/
theorem tour_coverage (file : List α) (C S i0 : Nat) (rng : Nat → Nat)
    (hS : 1 ≤ S) (hC : S ≤ C) (hi0 : i0 < file.length) :
    (tour_values file (C / S) i0 rng).Perm file ∧
    (∀ s : TourIt α,
      tour_is_end i0 s = true ↔ s.cache.length = 0 ∧ s.pos = i0) ∧
    (∀ B2 rng2, tour_values ([] : List α) B2 0 rng2 = []) := by
  have hN : 0 < file.length := by omega
  have hB : 1 ≤ C / S := (Nat.one_le_div_iff (by omega)).mpr hC
  refine ⟨?_, ?_, fun B2 rng2 => tour_values_nil B2 rng2⟩
  · obtain ⟨hip, hil, hipos, himod, hiit⟩ :=
      tour_init_spec file (C / S) i0 rng hi0 hB
    have hmin1 : 1 ≤ min (C / S) file.length := by omega
    have hemit := tour_emit_perm file (C / S) i0 rng hi0 hB
      (file.length + 1) (tour_init file (C / S) i0 rng)
      (min (C / S) file.length) (by omega) (by omega) hipos himod
      (by intro h; rw [hil] at h; omega) (by rw [hil]; omega)
    have hT := cyc_take_add file hN (min (C / S) file.length)
      (file.length - min (C / S) file.length) i0 hi0
    rw [show min (C / S) file.length
          + (file.length - min (C / S) file.length) = file.length
        from by omega] at hT
    have h2 : ((tour_init file (C / S) i0 rng).cache
          ++ cyc_take file ((i0 + min (C / S) file.length) % file.length)
               (file.length - min (C / S) file.length)).Perm
        (cyc_take file i0 (min (C / S) file.length)
          ++ cyc_take file ((i0 + min (C / S) file.length) % file.length)
               (file.length - min (C / S) file.length)) :=
      List.Perm.append_right _ hip
    have h3 : (cyc_take file i0 (min (C / S) file.length)
          ++ cyc_take file ((i0 + min (C / S) file.length) % file.length)
               (file.length - min (C / S) file.length)).Perm file := by
      rw [← hT]
      exact cyc_take_perm file i0 hi0
    exact (hemit.trans (h2.trans h3))
  · intro s
    rw [tour_is_end]
    simp

theorem tour_coverage_witness :
    (1 ≤ 4 ∧ 4 ≤ 8 ∧ 1 < ([10, 20, 30] : List Nat).length) ∧
    ((tour_values ([10, 20, 30] : List Nat) (8 / 4) 1
        (fun k => k + 2)).Perm [10, 20, 30] ∧
      (∀ s : TourIt Nat,
        tour_is_end 1 s = true ↔ s.cache.length = 0 ∧ s.pos = 1) ∧
      (∀ B2 rng2, tour_values ([] : List Nat) B2 0 rng2 = [])) :=
  ⟨⟨by decide, by decide, by decide⟩,
   tour_coverage [10, 20, 30] 8 4 1 (fun k => k + 2)
     (by decide) (by decide) (by decide)⟩

theorem tour_after_inv (file : List α) (B i0 : Nat) (rng : Nat → Nat)
    (hi0 : i0 < file.length) (hB : 1 ≤ B) :
    ∀ k, k ≤ file.length →
      ∃ c, 1 ≤ c ∧ c ≤ file.length ∧ k ≤ c ∧
        (tour_after file B i0 rng k).pos ≤ file.length ∧
        (tour_after file B i0 rng k).pos % file.length
          = (i0 + c) % file.length ∧
        ((tour_after file B i0 rng k).cache.length = 0 →
          (tour_after file B i0 rng k).pos = i0 ∧ c = file.length) ∧
        (tour_after file B i0 rng k).cache.length = c - k ∧
        (tour_after file B i0 rng k).iterated = k + 1 := by
  intro k
  induction k with
  | zero =>
    intro hk
    obtain ⟨hip, hil, hipos, himod, hiit⟩ :=
      tour_init_spec file B i0 rng hi0 hB
    have h0 : tour_after file B i0 rng 0 = tour_init file B i0 rng := rfl
    rw [h0]
    exact ⟨min B file.length, by omega, by omega, by omega, hipos, himod,
      fun h => by rw [hil] at h; omega, by rw [hil]; omega, hiit⟩
  | succ k ih =>
    intro hk
    obtain ⟨c, hc1, hcN, hkc, hpos, hmod, hzero, hlen, hit⟩ := ih (by omega)
    have hne : (tour_after file B i0 rng k).cache.length ≠ 0 := by
      intro h
      obtain ⟨_, hcf⟩ := hzero h
      omega
    obtain ⟨d, hcd, hpos2, hmod2, hzero2, hlen2, hit2, v, hvd, hperm⟩ :=
      tour_step file B i0 rng hi0 hB (tour_after file B i0 rng k) c
        hc1 hcN hpos hmod hne
    have hsucc : tour_after file B i0 rng (k + 1)
        = tour_next file B i0 rng (tour_after file B i0 rng k) :=
      Function.iterate_succ_apply' _ _ _
    rw [hsucc]
    refine ⟨c + d, by omega, hcd, by omega, hpos2, hmod2, hzero2, ?_, ?_⟩
    · rw [hlen2]
      omega
    · rw [hit2, hit]

/-- C5: For a key whose tour iterator has been started and advanced
`k ≤ N` times, `extractable_for` returns `N - k` (the bucket size
before the first extraction, decreasing by one per extraction,
reaching `0` when the tour is exhausted); for a key with no started
iterator it returns the bucket size. -/
theorem extractable_for_spec [DecidableEq κ] (st : IndexReader κ α)
    (key : κ) (file : List α) (B i0 k : Nat) (rng : Nat → Nat)
    (hi0 : i0 < file.length) (hB : 1 ≤ B) (hk : k ≤ file.length) :
    (st.bucket_iterators.lookup key
        = some (file.length, tour_after file B i0 rng k) →
      st.extractable_for key = file.length - k) ∧
    (st.bucket_iterators.lookup key = none →
      st.buckets.lookup key = some file →
      st.extractable_for key = file.length) := by
  constructor
  · intro hit
    obtain ⟨c, _, _, _, _, _, _, _, hiter⟩ :=
      tour_after_inv file B i0 rng hi0 hB k hk
    rw [IndexReader.extractable_for, hit]
    show file.length + 1 - (tour_after file B i0 rng k).iterated
      = file.length - k
    rw [hiter]
    omega
  · intro hnone hbucket
    rw [IndexReader.extractable_for, hnone, hbucket]

theorem extractable_for_spec_witness :
    (IndexReader.extractable_for
      ({ buckets := [(7, [5, 6])],
         bucket_iterators :=
           [(7, (2, tour_after [5, 6] 1 0 (fun x => x) 1))] }
        : IndexReader Nat Nat) 7 = 1) ∧
    (IndexReader.extractable_for
      ({ buckets := [(7, [5, 6])], bucket_iterators := [] }
        : IndexReader Nat Nat) 7 = 2) :=
  ⟨(extractable_for_spec
      ({ buckets := [(7, [5, 6])],
         bucket_iterators :=
           [(7, (2, tour_after [5, 6] 1 0 (fun x => x) 1))] }
        : IndexReader Nat Nat) 7 [5, 6] 1 0 1 (fun x => x)
      (by decide) (by decide) (by decide)).1 rfl,
   (extractable_for_spec
      ({ buckets := [(7, [5, 6])], bucket_iterators := [] }
        : IndexReader Nat Nat) 7 [5, 6] 1 0 0 (fun x => x)
      (by decide) (by decide) (by decide)).2 rfl rfl⟩

/-- C6: `BucketRandomTour` stores a copy of the generator passed at
construction, so further caller draws after construction leave the
emitted sequence unchanged, and two tours over the same bucket with
identical stored generator states emit identical sequences. -/
theorem tour_determinism (file : List α) (g : RngState) (cv n m : Nat)
    (default_rng : Nat → Nat) :
    scenario_emit file g cv n default_rng
      = scenario_emit file g cv m default_rng ∧
    (∀ t1 t2 : BucketRandomTour α,
      t1.file = t2.file →
      t1.random_generator.f = t2.random_generator.f →
      t1.random_generator.k = t2.random_generator.k →
      t1.cacheable_values = t2.cacheable_values →
      tour_sequence t1 default_rng = tour_sequence t2 default_rng) := by
  refine ⟨rfl, ?_⟩
  intro t1 t2 hf hgf hgk hcv
  obtain ⟨f1, g1, c1⟩ := t1
  obtain ⟨f2, g2, c2⟩ := t2
  obtain ⟨gf1, gk1⟩ := g1
  obtain ⟨gf2, gk2⟩ := g2
  dsimp only at hf hgf hgk hcv
  subst hf
  subst hgf
  subst hgk
  subst hcv
  rfl

theorem tour_determinism_witness :
    scenario_emit [true] ({ f := fun x => x, k := 0 } : RngState) 1 2
        (fun x => x)
      = scenario_emit [true] { f := fun x => x, k := 0 } 1 5
          (fun x => x) ∧
    tour_sequence
        ({ file := [true], random_generator := { f := fun x => x, k := 0 },
           cacheable_values := 1 } : BucketRandomTour Bool) (fun x => x)
      = tour_sequence
          { file := [true], random_generator := { f := fun x => x, k := 0 },
            cacheable_values := 1 } (fun x => x) :=
  ⟨(tour_determinism [true] { f := fun x => x, k := 0 } 1 2 5
      (fun x => x)).1,
   (tour_determinism [true] { f := fun x => x, k := 0 } 1 2 5
      (fun x => x)).2 _ _ rfl rfl rfl rfl⟩


theorem succ_mod_of (a m : Nat) (h : a % m + 1 < m) :
    (a + 1) % m = a % m + 1 := by
  conv_lhs => rw [← Nat.mod_add_mod]
  exact Nat.mod_eq_of_lt h

theorem succ_mod_zero (a m : Nat) (h : a % m + 1 = m) :
    (a + 1) % m = 0 := by
  rw [← Nat.mod_add_mod, h, Nat.mod_self]

theorem chain_all (r : Nat × Nat) (rest : List (Nat × Nat))
    (hch : List.Chain' (fun a b => a.2 < b.1) (r :: rest))
    (hwf : ∀ x ∈ rest, x.1 ≤ x.2) :
    ∀ x ∈ rest, r.2 < x.1 := by
  induction rest generalizing r with
  | nil =>
    intro x hx
    cases hx
  | cons r2 rest2 ih =>
    intro x hx
    have h12 : r.2 < r2.1 := (List.chain'_cons.mp hch).1
    rcases List.mem_cons.mp hx with rfl | hx2
    · exact h12
    · have h2 := ih r2 (List.chain'_cons.mp hch).2
        (fun y hy => hwf y (List.mem_cons_of_mem _ hy)) x hx2
      have hr2 : r2.1 ≤ r2.2 := hwf r2 (List.mem_cons_self _ _)
      omega

theorem reg_suffix_zero (regions : List (Nat × Nat)) :
    reg_suffix regions 0 = regions := by
  rw [reg_suffix]
  induction regions with
  | nil => rfl
  | cons r rest ih =>
    rw [List.dropWhile_cons, if_neg (by simp)]

theorem reg_suffix_cons_pos (r : Nat × Nat) (rest : List (Nat × Nat))
    (p : Nat) (h : r.2 < p) :
    reg_suffix (r :: rest) p = reg_suffix rest p := by
  rw [reg_suffix, reg_suffix, List.dropWhile_cons, if_pos (by simpa using h)]

theorem reg_suffix_cons_neg (r : Nat × Nat) (rest : List (Nat × Nat))
    (p : Nat) (h : ¬ r.2 < p) :
    reg_suffix (r :: rest) p = r :: rest := by
  rw [reg_suffix, List.dropWhile_cons, if_neg (by simpa using h)]

theorem reg_suffix_succ :
    ∀ (regions : List (Nat × Nat)),
      List.Chain' (fun a b => a.2 < b.1) regions →
      (∀ x ∈ regions, x.1 ≤ x.2) →
      ∀ (p : Nat),
        reg_suffix regions (p + 1)
          = match reg_suffix regions p with
            | r :: rest => if r.2 < p + 1 then rest else reg_suffix regions p
            | [] => [] := by
  intro regions
  induction regions with
  | nil =>
    intro _ _ p
    rfl
  | cons r rest ih =>
    intro hch hwf p
    by_cases h1 : r.2 < p
    · rw [reg_suffix_cons_pos r rest p h1,
          reg_suffix_cons_pos r rest (p + 1) (by omega)]
      exact ih hch.tail (fun x hx => hwf x (List.mem_cons_of_mem _ hx)) p
    · rw [reg_suffix_cons_neg r rest p h1]
      show reg_suffix (r :: rest) (p + 1)
        = if r.2 < p + 1 then rest else r :: rest
      by_cases h2 : r.2 < p + 1
      · rw [if_pos h2, reg_suffix_cons_pos r rest (p + 1) h2]
        cases rest with
        | nil => rfl
        | cons r2 rest2 =>
          have hr12 : r.2 < r2.1 := (List.chain'_cons.mp hch).1
          have hr2 : r2.1 ≤ r2.2 := hwf r2 (by simp)
          exact reg_suffix_cons_neg r2 rest2 (p + 1) (by omega)
      · rw [if_neg h2]
        exact reg_suffix_cons_neg r rest (p + 1) h2

theorem reg_mask :
    ∀ (regions : List (Nat × Nat)),
      List.Chain' (fun a b => a.2 < b.1) regions →
      (∀ x ∈ regions, x.1 ≤ x.2) →
      ∀ (p : Nat) (c : Char),
        (match reg_suffix regions p with
          | r :: _ => if r.1 ≤ p && p ≤ r.2 then 'N' else c
          | [] => c)
        = if region_mem p regions then 'N' else c := by
  intro regions
  induction regions with
  | nil =>
    intro _ _ p c
    rfl
  | cons r rest ih =>
    intro hch hwf p c
    by_cases h1 : r.2 < p
    · rw [reg_suffix_cons_pos r rest p h1,
          ih hch.tail (fun x hx => hwf x (List.mem_cons_of_mem _ hx)) p c]
      have hmm : region_mem p (r :: rest) = region_mem p rest := by
        rw [region_mem, region_mem, List.any_cons]
        have hfalse : (decide (r.1 ≤ p) && decide (p ≤ r.2)) = false := by
          simp
          omega
        rw [hfalse, Bool.false_or]
      rw [hmm]
    · rw [reg_suffix_cons_neg r rest p h1]
      show (if r.1 ≤ p && p ≤ r.2 then 'N' else c)
        = if region_mem p (r :: rest) then 'N' else c
      by_cases h2 : r.1 ≤ p
      · have hcond : (decide (r.1 ≤ p) && decide (p ≤ r.2)) = true := by
          simp
          omega
        have hregion : region_mem p (r :: rest) = true := by
          rw [region_mem, List.any_cons, hcond, Bool.true_or]
        rw [hregion]
        show (if (decide (r.1 ≤ p) && decide (p ≤ r.2)) = true
              then 'N' else c) = _
        rw [if_pos hcond, if_pos rfl]
      · have hcond : (decide (r.1 ≤ p) && decide (p ≤ r.2)) = false := by
          simp
          omega
        have hall := chain_all r rest hch
          (fun x hx => hwf x (List.mem_cons_of_mem _ hx))
        have hrest : rest.any
            (fun x => decide (x.1 ≤ p) && decide (p ≤ x.2)) = false := by
          rw [List.any_eq_false]
          intro x hx
          have := hall x hx
          simp
          omega
        have hregion : region_mem p (r :: rest) = false := by
          rw [region_mem, List.any_cons, hcond, Bool.false_or]
          exact hrest
        rw [hregion]
        show (if (decide (r.1 ≤ p) && decide (p ≤ r.2)) = true
              then 'N' else c) = _
        rw [if_neg (by rw [hcond]; simp), if_neg (by simp)]

theorem masked_eq (seq : List Char) (regions : List (Nat × Nat))
    (hch : List.Chain' (fun a b => a.2 < b.1) regions)
    (hwf : ∀ x ∈ regions, x.1 ≤ x.2) (n : Nat) (c : Char)
    (hcn : seq[n]? = some c) :
    (match reg_suffix regions (n + 1) with
      | r :: _ => if r.1 ≤ n + 1 && n + 1 ≤ r.2 then 'N' else c
      | [] => c)
    = masked_char seq regions (n + 1) := by
  have hgd : seq.getD (n + 1 - 1) 'N' = c := by
    rw [show n + 1 - 1 = n from rfl, List.getD_eq_getElem?_getD, hcn]
    rfl
  rw [masked_char, hgd, reg_mask regions hch hwf (n + 1) c]

theorem win_at_succ (seq : List Char) (rs : List (Nat × Nat)) (p : Nat) :
    automaton_update (win_at seq rs p) (masked_char seq rs (p + 1))
      = win_at seq rs (p + 1) := by
  have h1 : win_at seq rs p ++ [masked_char seq rs (p + 1)]
      = ((List.range (p + 1)).map
          (fun q => masked_char seq rs (q + 1))).drop (p - 3) := by
    rw [win_at, List.range_succ, List.map_append,
        List.drop_append_of_le_length (by simp)]
    simp only [List.map_cons, List.map_nil]
  show (win_at seq rs p ++ [masked_char seq rs (p + 1)]).drop
      ((win_at seq rs p ++ [masked_char seq rs (p + 1)]).length - 3)
    = win_at seq rs (p + 1)
  rw [h1, List.drop_drop, win_at]
  congr 1
  simp only [List.length_drop, List.length_map, List.length_range]
  omega

theorem win_at_of_three (seq : List Char) (rs : List (Nat × Nat)) (p : Nat)
    (hp : 3 ≤ p) : win_at seq rs p = ctx_at seq rs p := by
  obtain ⟨q, rfl⟩ : ∃ q, p = q + 3 := ⟨p - 3, by omega⟩
  rw [win_at, ctx_at]
  rw [show q + 3 = (q + 2) + 1 from rfl, List.range_succ,
      show q + 2 = (q + 1) + 1 from rfl, List.range_succ, List.range_succ]
  simp only [List.map_append, List.map_cons, List.map_nil]
  rw [show q + 1 + 1 + 1 - 3 = q from by omega,
      show q + 1 + 1 + 1 - 2 = q + 1 from by omega,
      show q + 1 + 1 + 1 - 1 = q + 2 from by omega]
  rw [List.append_assoc, List.append_assoc]
  rw [List.drop_append_of_le_length (by simp)]
  rw [List.drop_eq_nil_of_le (by simp), List.nil_append]
  simp only [List.singleton_append, List.cons_append, List.nil_append]

theorem win_at_length (seq : List Char) (rs : List (Nat × Nat)) (p : Nat) :
    (win_at seq rs p).length = p - (p - 3) := by
  rw [win_at]
  simp

theorem read_win (seq : List Char) (rs : List (Nat × Nat)) (p : Nat) :
    read_a_context (win_at seq rs p) = valid_at seq rs p := by
  by_cases hp : 3 ≤ p
  · rw [read_a_context, win_at_of_three seq rs p hp, valid_at]
    have h3 : (ctx_at seq rs p).length = 3 := rfl
    rw [h3]
    simp [hp]
  · rw [read_a_context, valid_at, win_at_length]
    have hne : ¬(p - (p - 3) = 3) := by omega
    simp [hne, hp]

theorem occ_upto_succ (seq : List Char) (rs : List (Nat × Nat))
    (code : List Char) (p : Nat) :
    occ_upto seq rs code (p + 1)
      = occ_upto seq rs code p
        + (if valid_at seq rs (p + 1)
              && decide (ctx_at seq rs (p + 1) = code)
           then 1 else 0) := by
  rw [occ_upto, occ_upto, List.range_succ, List.filter_append,
      List.length_append]
  congr 1
  by_cases h : (valid_at seq rs (p + 1)
      && decide (ctx_at seq rs (p + 1) = code)) = true
  · rw [if_pos h]
    simp [List.filter_cons, h]
  · rw [if_neg h]
    simp [List.filter_cons, h]

theorem sbs_step_spec (chr_id delta : Nat) (regions : List (Nat × Nat))
    (seq : List Char) (hdelta : 1 ≤ delta)
    (hch : List.Chain' (fun a b => a.2 < b.1) regions)
    (hwf : ∀ x ∈ regions, x.1 ≤ x.2)
    (n : Nat) (c : Char)
    (hc : (is_a_DNA_base c || c = 'N') = true)
    (hcn : seq[n]? = some c) :
    sbs_step chr_id delta (sbs_state_at delta regions seq n) c
      = (sbs_state_at delta regions seq (n + 1),
         sbs_out_at chr_id delta regions seq (n + 1)) := by
  have hregstep := (reg_suffix_succ regions hch hwf n).symm
  have hmask := masked_eq seq regions hch hwf n c hcn
  rw [sbs_step, if_pos hc]
  dsimp only [sbs_state_at]
  rw [hregstep, hmask, win_at_succ, read_win]
  by_cases hval : valid_at seq regions (n + 1) = true
  · have h3 : 3 ≤ n + 1 := by
      by_contra h
      rw [valid_at] at hval
      simp only [Bool.and_eq_true, decide_eq_true_eq] at hval
      exact h hval.1
    rw [if_pos hval, win_at_of_three seq regions (n + 1) h3]
    have hocc : occ_upto seq regions (ctx_at seq regions (n + 1)) (n + 1)
        = occ_upto seq regions (ctx_at seq regions (n + 1)) n + 1 := by
      rw [occ_upto_succ seq regions (ctx_at seq regions (n + 1)) n,
          if_pos (by rw [hval]; simp)]
    by_cases hins : occ_upto seq regions (ctx_at seq regions (n + 1)) n
        % delta + 1 = delta
    · have hz : occ_upto seq regions (ctx_at seq regions (n + 1)) (n + 1)
          % delta = 0 := by
        rw [hocc]
        exact succ_mod_zero _ _ hins
      have hupd : update_skipped_contexts
          (fun code => occ_upto seq regions code n % delta)
          (ctx_at seq regions (n + 1)) delta
          = (true, fun code => occ_upto seq regions code (n + 1) % delta)
          := by
        rw [update_skipped_contexts]
        rw [if_pos hins]
        congr 1
        funext x
        by_cases hx : x = ctx_at seq regions (n + 1)
        · rw [if_pos hx, hx]
          exact hz.symm
        · rw [if_neg hx, occ_upto_succ seq regions x n,
              if_neg (by
                simp only [Bool.and_eq_true, decide_eq_true_eq, not_and]
                intro _ he
                exact hx he.symm),
              Nat.add_zero]
      rw [hupd]
      dsimp only
      rw [if_pos rfl, sbs_out_at, if_pos (by rw [hval, hz]; simp)]
    · have hlt : occ_upto seq regions (ctx_at seq regions (n + 1)) n
          % delta + 1 < delta := by
        have := Nat.mod_lt
          (occ_upto seq regions (ctx_at seq regions (n + 1)) n)
          (show 0 < delta from by omega)
        omega
      have hnz : occ_upto seq regions (ctx_at seq regions (n + 1)) (n + 1)
          % delta
          = occ_upto seq regions (ctx_at seq regions (n + 1)) n
              % delta + 1 := by
        rw [hocc]
        exact succ_mod_of _ _ hlt
      have hne0 : ¬ (occ_upto seq regions (ctx_at seq regions (n + 1))
          (n + 1) % delta = 0) := by
        rw [hnz]
        omega
      have hupd : update_skipped_contexts
          (fun code => occ_upto seq regions code n % delta)
          (ctx_at seq regions (n + 1)) delta
          = (false, fun code => occ_upto seq regions code (n + 1) % delta)
          := by
        rw [update_skipped_contexts]
        rw [if_neg hins]
        congr 1
        funext x
        by_cases hx : x = ctx_at seq regions (n + 1)
        · rw [if_pos hx, hx, hnz]
        · rw [if_neg hx, occ_upto_succ seq regions x n,
              if_neg (by
                simp only [Bool.and_eq_true, decide_eq_true_eq, not_and]
                intro _ he
                exact hx he.symm),
              Nat.add_zero]
      rw [hupd]
      dsimp only
      rw [if_neg (by simp), sbs_out_at,
          if_neg (by
            simp only [hval, Bool.true_and, decide_eq_true_eq]
            exact hne0)]
  · have hvf : valid_at seq regions (n + 1) = false := by
      cases hb : valid_at seq regions (n + 1) with
      | false => rfl
      | true => exact absurd hb hval
    rw [if_neg hval]
    have hskip : (fun code => occ_upto seq regions code n % delta)
        = (fun code => occ_upto seq regions code (n + 1) % delta) := by
      funext x
      rw [occ_upto_succ seq regions x n, if_neg (by rw [hvf]; simp),
          Nat.add_zero]
    rw [hskip, sbs_out_at, if_neg (by rw [hvf]; simp)]

theorem sbs_run_cons (chr_id delta : Nat) (st : SbsState) (c : Char)
    (cs : List Char) :
    (sbs_run chr_id delta st (c :: cs)).2
      = (sbs_step chr_id delta st c).2
        :: (sbs_run chr_id delta (sbs_step chr_id delta st c).1 cs).2 := rfl

theorem sbs_run_spec (chr_id delta : Nat) (regions : List (Nat × Nat))
    (seq : List Char) (hdelta : 1 ≤ delta)
    (hch : List.Chain' (fun a b => a.2 < b.1) regions)
    (hwf : ∀ x ∈ regions, x.1 ≤ x.2)
    (hseq : ∀ c ∈ seq, (is_a_DNA_base c || c = 'N') = true) :
    ∀ (cs : List Char) (n : Nat), seq.drop n = cs →
      (sbs_run chr_id delta (sbs_state_at delta regions seq n) cs).2
        = (List.range (seq.length - n)).map
            (fun j => sbs_out_at chr_id delta regions seq (n + j + 1)) := by
  intro cs
  induction cs with
  | nil =>
    intro n hdrop
    have hlen : seq.length - n = 0 := by
      have h := congrArg List.length hdrop
      simp only [List.length_drop, List.length_nil] at h
      exact h
    rw [hlen]
    rfl
  | cons c cs ih =>
    intro n hdrop
    have hn : n < seq.length := by
      by_contra h
      rw [List.drop_eq_nil_of_le (by omega)] at hdrop
      simp at hdrop
    have hcn : seq[n]? = some c := by
      have h0 : (seq.drop n)[0]? = some c := by
        rw [hdrop]
        simp
      rw [List.getElem?_drop] at h0
      simpa using h0
    have hcmem : c ∈ seq := by
      have hx : seq.get ⟨n, hn⟩ = c := by
        have h2 := List.getElem?_eq_getElem hn
        rw [hcn] at h2
        exact (Option.some.inj h2).symm
      rw [← hx]
      exact List.get_mem seq n hn
    have hstep := sbs_step_spec chr_id delta regions seq hdelta hch hwf n c
      (hseq c hcmem) hcn
    have hdrop2 : seq.drop (n + 1) = cs := by
      rw [← List.drop_drop, hdrop]
      rfl
    rw [sbs_run_cons, hstep]
    dsimp only
    rw [ih (n + 1) hdrop2]
    have hlen : seq.length - n = (seq.length - (n + 1)) + 1 := by omega
    rw [hlen, List.range_succ_eq_map, List.map_cons, List.map_map]
    congr 1
    apply List.map_congr_left
    intro a ha
    simp only [Function.comp_apply]
    congr 1
    omega

/-- C7: During the SBS scan of a chromosome the insertion performed at
1-based position `p` is exactly `(context, (chr_id, p - 2))` when the
automaton holds a valid three-base context at `p` and the per-context
counter, incremented at each admissible occurrence, reaches
`sampling_delta` (modelled as the occurrence count being divisible by
`sampling_delta`); positions masked by a region to avoid never yield a
valid context; and with `sampling_delta = 1` every admissible
occurrence is inserted. -/
theorem sbs_scan_insertions (chr_id delta : Nat)
    (regions : List (Nat × Nat)) (seq : List Char) (hdelta : 1 ≤ delta)
    (hch : List.Chain' (fun a b => a.2 < b.1) regions)
    (hwf : ∀ x ∈ regions, x.1 ≤ x.2)
    (hseq : ∀ c ∈ seq, (is_a_DNA_base c || c = 'N') = true) :
    (∀ p, 1 ≤ p → p ≤ seq.length →
      (sbs_scan chr_id delta regions seq)[p - 1]?
        = some (if valid_at seq regions p
              && decide (occ_upto seq regions (ctx_at seq regions p) p
                    % delta = 0)
            then some (ctx_at seq regions p, (chr_id, p - 2))
            else none)) ∧
    (∀ p, region_mem p regions = true →
      valid_at seq regions p = false) ∧
    (delta = 1 → ∀ p, 1 ≤ p → p ≤ seq.length →
      (sbs_scan chr_id delta regions seq)[p - 1]?
        = some (if valid_at seq regions p
            then some (ctx_at seq regions p, (chr_id, p - 2))
            else none)) := by
  have hskip0 : (fun _ : List Char => (0 : Nat))
      = (fun code : List Char => occ_upto seq regions code 0 % delta) := by
    funext x
    show (0 : Nat) = occ_upto seq regions x 0 % delta
    rw [show occ_upto seq regions x 0 = 0 from rfl, Nat.zero_mod]
  have hinit : (⟨0, regions, [], fun _ => 0⟩ : SbsState)
      = sbs_state_at delta regions seq 0 := by
    rw [sbs_state_at, reg_suffix_zero, ← hskip0]
    rfl
  have hscan : sbs_scan chr_id delta regions seq
      = (List.range seq.length).map
          (fun j => sbs_out_at chr_id delta regions seq (j + 1)) := by
    rw [sbs_scan, hinit,
        sbs_run_spec chr_id delta regions seq hdelta hch hwf hseq seq 0 rfl]
    simp only [Nat.sub_zero, Nat.zero_add]
  have hmain : ∀ p, 1 ≤ p → p ≤ seq.length →
      (sbs_scan chr_id delta regions seq)[p - 1]?
        = some (if valid_at seq regions p
              && decide (occ_upto seq regions (ctx_at seq regions p) p
                    % delta = 0)
            then some (ctx_at seq regions p, (chr_id, p - 2))
            else none) := by
    intro p hp1 hp2
    rw [hscan, List.getElem?_map, List.getElem?_range (by omega)]
    show some (sbs_out_at chr_id delta regions seq (p - 1 + 1)) = _
    rw [show p - 1 + 1 = p from by omega, sbs_out_at]
  refine ⟨hmain, ?_, ?_⟩
  · intro p hpm
    have hm : masked_char seq regions p = 'N' := by
      rw [masked_char, if_pos hpm]
    rw [valid_at, ctx_at, hm]
    simp [is_a_DNA_base]
  · intro hd1 p hp1 hp2
    rw [hmain p hp1 hp2]
    subst hd1
    simp [Nat.mod_one]

theorem sbs_scan_insertions_witness :
    ((sbs_scan 9 1 [(6, 7)] ['A', 'C', 'G', 'T'])[3 - 1]?
        = some (if valid_at ['A', 'C', 'G', 'T'] [(6, 7)] 3
              && decide (occ_upto ['A', 'C', 'G', 'T'] [(6, 7)]
                    (ctx_at ['A', 'C', 'G', 'T'] [(6, 7)] 3) 3 % 1 = 0)
            then some (ctx_at ['A', 'C', 'G', 'T'] [(6, 7)] 3, (9, 3 - 2))
            else none)) ∧
    (valid_at ['A', 'C', 'G', 'T'] [(6, 7)] 6 = false) :=
  ⟨(sbs_scan_insertions 9 1 [(6, 7)] ['A', 'C', 'G', 'T'] (by decide)
      (List.chain'_singleton _) (by decide) (by decide)).1 3
      (by decide) (by decide),
   (sbs_scan_insertions 9 1 [(6, 7)] ['A', 'C', 'G', 'T'] (by decide)
      (List.chain'_singleton _) (by decide) (by decide)).2.1 6 (by decide)⟩


end CLONES
